import Mathlib

/-!
Verification development for the NxController identity resolution engine.

Shallow embedding conventions:
* Python strings are modelled as lists of Unicode code points (`Str := List Nat`);
  `strOf` converts a Lean string literal into this representation.
* Python dicts are modelled as insertion-ordered association lists
  (`List (Str × α)`); real dicts have unique keys, which appears as an
  explicit `Nodup` hypothesis where a proof needs it.
* Fallible operations return `Option`/`Except`; Python truthiness on strings
  (`if s:`) is modelled explicitly (`none`/empty list are falsy).
-/

abbrev Str : Type := List Nat

def strOf (s : String) : Str := s.data.map Char.toNat

/-- Code-point model of Python `str.lower` (ASCII letters). -/
def lowerN (c : Nat) : Nat := if 65 ≤ c ∧ c ≤ 90 then c + 32 else c

/-- Code-point model of Python `str.upper` (ASCII letters). -/
def upperN (c : Nat) : Nat := if 97 ≤ c ∧ c ≤ 122 then c - 32 else c

def lowerS (s : Str) : Str := s.map lowerN

def upperS (s : Str) : Str := s.map upperN

/-- The character class of the regex `[0-9A-Fa-f]`. -/
def isHexN (c : Nat) : Bool :=
  decide ((48 ≤ c ∧ c ≤ 57) ∨ (65 ≤ c ∧ c ≤ 70) ∨ (97 ≤ c ∧ c ≤ 102))

/-- ASCII whitespace, for Python `str.strip`. -/
def isSpaceN (c : Nat) : Bool := decide (c = 32 ∨ (9 ≤ c ∧ c ≤ 13))

def stripS (s : Str) : Str :=
  ((s.dropWhile isSpaceN).reverse.dropWhile isSpaceN).reverse

/-- Truthiness of an optional string: `None` and `""` are falsy. -/
def truthyS : Option Str → Bool
  | none => false
  | some s => decide (s ≠ [])

/-- Association list lookup (first matching key), modelling `dict.get`. -/
def alGet {α : Type} : List (Str × α) → Str → Option α
  | [], _ => none
  | (k, v) :: t, key => if k = key then some v else alGet t key

/-- Association list update: replace the first binding in place, else append.
Models `d[k] = v` on a Python dict (existing keys keep their position). -/
def alSet {α : Type} : List (Str × α) → Str → α → List (Str × α)
  | [], key, v => [(key, v)]
  | (k, w) :: t, key, v =>
      if k = key then (key, v) :: t else (k, w) :: alSet t key v

/-- Association list removal of the first binding, modelling `dict.pop`. -/
def alRemove {α : Type} : List (Str × α) → Str → List (Str × α)
  | [], _ => []
  | (k, w) :: t, key => if k = key then t else (k, w) :: alRemove t key

/-- `dict.setdefault`: insert at the end when the key is absent. -/
def alSetdefault {α : Type} (l : List (Str × α)) (k : Str) (v : α) :
    List (Str × α) :=
  match alGet l k with
  | some _ => l
  | none => l ++ [(k, v)]

def alKeys {α : Type} (l : List (Str × α)) : List Str := l.map Prod.fst

/-- Removal of the first occurrence, modelling `list.remove`. -/
def eraseFirst : List Str → Str → List Str
  | [], _ => []
  | x :: t, m => if x = m then t else x :: eraseFirst t m

namespace NxApi

/-!
Embedding of `custom_components/nx_controller/api.py`, function `_normalize_mac`:
strip every character outside `[0-9A-Fa-f]`, require exactly 12 digits,
uppercase, join in pairs with colons.
-/

/-- `":".join(mac_clean[i:i+2] for i in range(0, 12, 2))` on a 12-char string:
interleave a colon (code point 58) after every pair. -/
def colonJoin2 : Str → Str
  | a :: b :: c :: rest => a :: b :: 58 :: colonJoin2 (c :: rest)
  | l => l

/-- `api._normalize_mac` for a non-`None` argument. -/
def normalizeMac (mac : Str) : Option Str :=
  if mac = [] then none
  else if (mac.filter isHexN).length ≠ 12 then none
  else some (colonJoin2 ((mac.filter isHexN).map upperN))

/-- `api._normalize_mac` including the `None` short-circuit (`if not mac`). -/
def normalizeMacOpt : Option Str → Option Str
  | none => none
  | some s => normalizeMac s

/-- Canonical MAC shape: twelve uppercase hex digits joined in colon-separated
pairs. This is the output format of `_normalize_mac`. -/
def IsCanonMac (s : Str) : Prop :=
  ∃ h : Str, h.length = 12 ∧ (∀ c ∈ h, isHexN c = true ∧ upperN c = c) ∧
    s = colonJoin2 h

theorem isHexN_upperN {c : Nat} (hc : isHexN c = true) :
    isHexN (upperN c) = true ∧ upperN (upperN c) = upperN c := by
  simp only [isHexN, upperN, decide_eq_true_eq] at *
  refine ⟨?_, ?_⟩ <;> split_ifs <;> omega

theorem isHexN_ne_colon {c : Nat} (hc : isHexN c = true) : c ≠ 58 := by
  simp only [isHexN, decide_eq_true_eq] at hc
  omega

theorem filter_isHexN_colonJoin2 (h : Str) (hh : ∀ c ∈ h, isHexN c = true) :
    (colonJoin2 h).filter isHexN = h := by
  induction h using colonJoin2.induct with
  | case1 a b c rest ih =>
    have ha := hh a (by simp)
    have hb := hh b (by simp)
    have h58 : isHexN 58 = false := by decide
    simp only [colonJoin2, List.filter_cons, ha, hb, h58]
    simp only [List.filter_cons] at ih
    exact congrArg (a :: b :: ·) (ih (fun x hx => hh x (by simp at hx ⊢; tauto)))
  | case2 l hl1 =>
    match l with
    | [] => simp [colonJoin2]
    | [a] =>
      have := hh a (by simp)
      simp [colonJoin2, List.filter_cons, this]
    | [a, b] =>
      have ha := hh a (by simp)
      have hb := hh b (by simp)
      simp [colonJoin2, List.filter_cons, ha, hb]
    | a :: b :: c :: rest => exact absurd rfl (hl1 a b c rest)

theorem map_colonJoin2 (f : Nat → Nat) (hf : f 58 = 58) (h : Str) :
    (colonJoin2 h).map f = colonJoin2 (h.map f) := by
  induction h using colonJoin2.induct with
  | case1 a b c rest ih => simp [colonJoin2, hf, ih]
  | case2 l hl1 =>
    match l with
    | [] => simp [colonJoin2]
    | [a] => simp [colonJoin2]
    | [a, b] => simp [colonJoin2]
    | a :: b :: c :: rest => exact absurd rfl (hl1 a b c rest)

theorem normalizeMac_canon {t s : Str} (h : normalizeMac t = some s) :
    IsCanonMac s := by
  unfold normalizeMac at h
  split at h
  · exact absurd h (by simp)
  · split at h
    · exact absurd h (by simp)
    · rename_i hne hlen
      refine ⟨(t.filter isHexN).map upperN, ?_, ?_, ?_⟩
      · simp; omega
      · intro c hc
        simp only [List.mem_map] at hc
        obtain ⟨c0, hc0, rfl⟩ := hc
        exact isHexN_upperN (List.of_mem_filter hc0)
      · simpa using h.symm

theorem normalizeMac_of_canon {s : Str} (h : IsCanonMac s) :
    normalizeMac s = some s := by
  obtain ⟨d, hlen, hch, rfl⟩ := h
  have hhex : ∀ c ∈ d, isHexN c = true := fun c hc => (hch c hc).1
  have hfilter : (colonJoin2 d).filter isHexN = d :=
    filter_isHexN_colonJoin2 d hhex
  have hne : colonJoin2 d ≠ [] := by
    intro hemp
    rw [← hfilter, hemp] at hlen
    simp at hlen
  have hmap : d.map upperN = d := by
    conv_rhs => rw [← List.map_id d]
    exact List.map_congr_left (fun c hc => (hch c hc).2)
  unfold normalizeMac
  rw [if_neg hne, hfilter, hmap, if_neg (by omega)]

/-- Idempotence of `api._normalize_mac` on successful outputs. -/
theorem normalizeMac_idem {t s : Str} (h : normalizeMac t = some s) :
    normalizeMac s = some s :=
  normalizeMac_of_canon (normalizeMac_canon h)

theorem lowerN_inj_on_canon {c d : Nat}
    (hc : isHexN c = true ∧ upperN c = c ∨ c = 58)
    (hd : isHexN d = true ∧ upperN d = d ∨ d = 58)
    (h : lowerN c = lowerN d) : c = d := by
  rcases hc with ⟨hc1, hc2⟩ | rfl <;> rcases hd with ⟨hd1, hd2⟩ | rfl <;>
    simp only [isHexN, lowerN, upperN, decide_eq_true_eq] at * <;>
    split_ifs at * <;> omega

theorem canon_mem_colonJoin2 {d : Str} (hch : ∀ c ∈ d, isHexN c = true ∧ upperN c = c) :
    ∀ x ∈ colonJoin2 d, (isHexN x = true ∧ upperN x = x) ∨ x = 58 := by
  induction d using colonJoin2.induct with
  | case1 a b c rest ih =>
    intro x hx
    simp only [colonJoin2, List.mem_cons] at hx
    rcases hx with rfl | rfl | rfl | hx
    · exact Or.inl (hch x (by simp))
    · exact Or.inl (hch x (by simp))
    · exact Or.inr rfl
    · exact ih (fun y hy => hch y (by simp at hy ⊢; tauto)) x hx
  | case2 l hl1 =>
    intro x hx
    match l with
    | [] => simp [colonJoin2] at hx
    | [a] =>
      simp only [colonJoin2, List.mem_singleton] at hx
      exact Or.inl (hx ▸ hch a (by simp))
    | [a, b] =>
      simp only [colonJoin2, List.mem_cons, List.not_mem_nil, or_false] at hx
      rcases hx with rfl | rfl
      · exact Or.inl (hch x (by simp))
      · exact Or.inl (hch x (by simp))
    | a :: b :: c :: rest => exact absurd rfl (hl1 a b c rest)

theorem map_lowerN_inj {a : Str} :
    ∀ {b : Str}, (∀ x ∈ a, (isHexN x = true ∧ upperN x = x) ∨ x = 58) →
    (∀ x ∈ b, (isHexN x = true ∧ upperN x = x) ∨ x = 58) →
    a.map lowerN = b.map lowerN → a = b := by
  induction a with
  | nil =>
    intro b _ _ h
    simpa using h.symm
  | cons x t ih =>
    intro b hma hmb h
    match b with
    | [] => simp at h
    | y :: s =>
      simp only [List.map_cons, List.cons.injEq] at h
      have hxy := lowerN_inj_on_canon (hma x (by simp)) (hmb y (by simp)) h.1
      subst hxy
      exact congrArg (x :: ·) (ih (fun z hz => hma z (by simp [hz]))
        (fun z hz => hmb z (by simp [hz])) h.2)

/-- `str.lower` is injective on canonical MACs: two canonical MACs with the
same lowercase form are equal. -/
theorem canon_lower_inj {a b : Str} (ha : IsCanonMac a) (hb : IsCanonMac b)
    (h : lowerS a = lowerS b) : a = b := by
  obtain ⟨da, _, hcha, rfl⟩ := ha
  obtain ⟨db, _, hchb, rfl⟩ := hb
  exact map_lowerN_inj (canon_mem_colonJoin2 hcha) (canon_mem_colonJoin2 hchb) h

end NxApi

namespace NxSsh

/-!
Embedding of `custom_components/nx_controller/ssh_client.py`, function
`normalize_mac`, built on `MAC_REGEX = ([0-9A-Fa-f]{2}[:-]){5}([0-9A-Fa-f]{2})`:
`re.search` for the leftmost 17-character window matching the pattern, then
`replace("-", ":")`, `split(":")`, and `":".join(part.upper().zfill(2))`.
-/

/-- The separator class `[:-]` of `MAC_REGEX` (colon 58 or hyphen 45). -/
def isSepN (c : Nat) : Bool := decide (c = 58 ∨ c = 45)

/-- Whether `MAC_REGEX` matches at the start of the text (the pattern has
fixed width 17: five hex pairs each followed by a separator, then a pair). -/
def macWindow : Str → Bool
  | a0 :: a1 :: s0 :: a2 :: a3 :: s1 :: a4 :: a5 :: s2 :: a6 :: a7 :: s3 ::
      a8 :: a9 :: s4 :: a10 :: a11 :: _ =>
    isHexN a0 && isHexN a1 && isSepN s0 && isHexN a2 && isHexN a3 && isSepN s1 &&
    isHexN a4 && isHexN a5 && isSepN s2 && isHexN a6 && isHexN a7 && isSepN s3 &&
    isHexN a8 && isHexN a9 && isSepN s4 && isHexN a10 && isHexN a11
  | _ => false

/-- `MAC_REGEX.search`: leftmost match, returning `group(0)`. -/
def searchMac : Str → Option Str
  | [] => none
  | c :: t => if macWindow (c :: t) then some ((c :: t).take 17) else searchMac t

/-- Python `str.split(":")`. -/
def splitColon : Str → List Str
  | [] => [[]]
  | c :: t =>
    if c = 58 then [] :: splitColon t
    else
      match splitColon t with
      | [] => [[c]]
      | h :: r => (c :: h) :: r

/-- Python `":".join`. -/
def joinColon : List Str → Str
  | [] => []
  | [p] => p
  | p :: rest => p ++ 58 :: joinColon rest

/-- Python `str.zfill(2)`: left-pad with `'0'` (48) to length two. -/
def zfill2 : Str → Str
  | [] => [48, 48]
  | [c] => [48, c]
  | l => l

/-- `ssh_client.normalize_mac`. -/
def normalize_mac (mac : Str) : Option Str :=
  match searchMac mac with
  | none => none
  | some g =>
    some (joinColon (((splitColon
      (g.map (fun c => if c = 45 then 58 else c))).map
        (fun p => zfill2 (p.map upperN)))))

theorem isHexN_ne_45 {c : Nat} (hc : isHexN c = true) : c ≠ 45 := by
  simp only [isHexN, decide_eq_true_eq] at hc
  omega

theorem splitColon_58 (t : Str) : splitColon (58 :: t) = [] :: splitColon t := by
  simp [splitColon]

theorem splitColon_two {a b : Nat} (t : Str) (ha : a ≠ 58) (hb : b ≠ 58) :
    splitColon (a :: b :: 58 :: t) = [a, b] :: splitColon t := by
  have h2 : splitColon (b :: 58 :: t) = [b] :: splitColon t := by
    rw [splitColon, if_neg hb, splitColon_58]
  rw [splitColon, if_neg ha, h2]

theorem splitColon_pair_end {a b : Nat} (ha : a ≠ 58) (hb : b ≠ 58) :
    splitColon [a, b] = [[a, b]] := by
  have h1 : splitColon [b] = [[b]] := by rw [splitColon, if_neg hb]; rfl
  rw [splitColon, if_neg ha, h1]

theorem splitColon_single {a : Nat} (ha : a ≠ 58) : splitColon [a] = [[a]] := by
  rw [splitColon, if_neg ha]; rfl

/-- Splitting a colon-joined string back into its two-character chunks. -/
def chunks2 : Str → List Str
  | a :: b :: c :: rest => [a, b] :: chunks2 (c :: rest)
  | l => [l]

theorem chunks2_ne_nil (l : Str) : chunks2 l ≠ [] := by
  unfold chunks2; split <;> simp

theorem splitColon_colonJoin2 (l : Str) (hl : ∀ c ∈ l, c ≠ 58) (hne : l ≠ []) :
    splitColon (NxApi.colonJoin2 l) = chunks2 l := by
  induction l using NxApi.colonJoin2.induct with
  | case1 a b c rest ih =>
    rw [NxApi.colonJoin2, splitColon_two _ (hl a (by simp)) (hl b (by simp)),
      ih (fun x hx => hl x (by simp at hx ⊢; tauto)) (by simp)]
    rfl
  | case2 l hl1 =>
    match l with
    | [] => exact absurd rfl hne
    | [a] =>
      rw [show NxApi.colonJoin2 [a] = [a] from rfl, splitColon_single (hl a (by simp))]
      rfl
    | [a, b] =>
      rw [show NxApi.colonJoin2 [a, b] = [a, b] from rfl,
        splitColon_pair_end (hl a (by simp)) (hl b (by simp))]
      rfl
    | a :: b :: c :: rest => exact absurd rfl (hl1 a b c rest)

theorem joinColon_chunks2 (l : Str) (hne : l ≠ []) (hev : l.length % 2 = 0) :
    joinColon ((chunks2 l).map (fun p => zfill2 (p.map upperN))) =
      NxApi.colonJoin2 (l.map upperN) := by
  induction l using NxApi.colonJoin2.induct with
  | case1 a b c rest ih =>
    have hev2 : (c :: rest).length % 2 = 0 := by simp at hev ⊢; omega
    obtain ⟨q, r, hqr⟩ : ∃ q r, (chunks2 (c :: rest)).map
        (fun p => zfill2 (p.map upperN)) = q :: r := by
      rcases hm : (chunks2 (c :: rest)).map (fun p => zfill2 (p.map upperN)) with _ | ⟨q, r⟩
      · exact absurd (List.map_eq_nil_iff.mp hm) (chunks2_ne_nil _)
      · exact ⟨q, r, hm⟩
    rw [chunks2, List.map_cons, hqr, joinColon, ← hqr, ih (by simp) hev2]
    · rfl
    · simp
  | case2 l hl1 =>
    match l with
    | [] => exact absurd rfl hne
    | [a] => simp at hev
    | [a, b] => rfl
    | a :: b :: c :: rest => exact absurd rfl (hl1 a b c rest)

theorem macWindow_big {l : Str} (h : macWindow l = true) :
    ∃ a0 a1 s0 a2 a3 s1 a4 a5 s2 a6 a7 s3 a8 a9 s4 a10 a11 rest,
      l = a0 :: a1 :: s0 :: a2 :: a3 :: s1 :: a4 :: a5 :: s2 :: a6 :: a7 ::
        s3 :: a8 :: a9 :: s4 :: a10 :: a11 :: rest ∧
      (∀ c ∈ [a0, a1, a2, a3, a4, a5, a6, a7, a8, a9, a10, a11], isHexN c = true) ∧
      (∀ c ∈ [s0, s1, s2, s3, s4], isSepN c = true) := by
  rcases l with _ | ⟨a0, _ | ⟨a1, _ | ⟨s0, _ | ⟨a2, _ | ⟨a3, _ | ⟨s1, _ | ⟨a4,
    _ | ⟨a5, _ | ⟨s2, _ | ⟨a6, _ | ⟨a7, _ | ⟨s3, _ | ⟨a8, _ | ⟨a9, _ | ⟨s4,
    _ | ⟨a10, _ | ⟨a11, rest⟩⟩⟩⟩⟩⟩⟩⟩⟩⟩⟩⟩⟩⟩⟩⟩⟩ <;>
    simp only [macWindow, Bool.and_eq_true, Bool.false_eq_true] at h
  exact ⟨a0, a1, s0, a2, a3, s1, a4, a5, s2, a6, a7, s3, a8, a9, s4, a10, a11,
    rest, rfl, by simp_all, by simp_all⟩

theorem searchMac_structure {t g : Str} (h : searchMac t = some g) :
    ∃ a0 a1 s0 a2 a3 s1 a4 a5 s2 a6 a7 s3 a8 a9 s4 a10 a11,
      g = [a0, a1, s0, a2, a3, s1, a4, a5, s2, a6, a7, s3, a8, a9, s4, a10, a11] ∧
      (∀ c ∈ [a0, a1, a2, a3, a4, a5, a6, a7, a8, a9, a10, a11], isHexN c = true) ∧
      (∀ c ∈ [s0, s1, s2, s3, s4], isSepN c = true) := by
  induction t with
  | nil => simp [searchMac] at h
  | cons c t ih =>
    rw [searchMac] at h
    split at h
    · rename_i hw
      obtain ⟨a0, a1, s0, a2, a3, s1, a4, a5, s2, a6, a7, s3, a8, a9, s4, a10,
        a11, rest, heq, hhex, hsep⟩ := macWindow_big hw
      rw [heq] at h
      refine ⟨a0, a1, s0, a2, a3, s1, a4, a5, s2, a6, a7, s3, a8, a9, s4, a10,
        a11, ?_, hhex, hsep⟩
      have : (a0 :: a1 :: s0 :: a2 :: a3 :: s1 :: a4 :: a5 :: s2 :: a6 :: a7 ::
          s3 :: a8 :: a9 :: s4 :: a10 :: a11 :: rest).take 17 =
          [a0, a1, s0, a2, a3, s1, a4, a5, s2, a6, a7, s3, a8, a9, s4, a10, a11] := by
        simp [List.take_succ_cons]
      rw [this] at h
      exact (Option.some.injEq _ _ ▸ h).symm
    · exact ih h

theorem rep45_hex {c : Nat} (h : isHexN c = true) :
    (if c = 45 then 58 else c) = c := if_neg (isHexN_ne_45 h)

theorem rep45_sep {c : Nat} (h : isSepN c = true) :
    (if c = 45 then 58 else c) = 58 := by
  simp only [isSepN, decide_eq_true_eq] at h
  rcases h with h | h <;> simp [h]

theorem exists_cons_of_length_succ {l : List Nat} {n : Nat}
    (h : l.length = n + 1) : ∃ c t, l = c :: t ∧ t.length = n := by
  cases l with
  | nil => simp at h
  | cons c t => exact ⟨c, t, rfl, by simpa using h⟩

/-- Every successful output of `ssh_client.normalize_mac` is a canonical MAC
(uppercase hex pairs joined with colons). -/
theorem normalize_mac_canon {t s : Str} (h : normalize_mac t = some s) :
    NxApi.IsCanonMac s := by
  unfold normalize_mac at h
  rcases hsr : searchMac t with _ | g
  · rw [hsr] at h; exact absurd h (by simp)
  · rw [hsr] at h
    dsimp only at h
    obtain ⟨a0, a1, s0, a2, a3, s1, a4, a5, s2, a6, a7, s3, a8, a9, s4, a10,
      a11, rfl, hhex, hsep⟩ := searchMac_structure hsr
    have hmap : List.map (fun c => if c = 45 then 58 else c)
        [a0, a1, s0, a2, a3, s1, a4, a5, s2, a6, a7, s3, a8, a9, s4, a10, a11] =
        NxApi.colonJoin2 [a0, a1, a2, a3, a4, a5, a6, a7, a8, a9, a10, a11] := by
      simp only [List.map_cons, List.map_nil]
      rw [rep45_hex (hhex a0 (by simp)), rep45_hex (hhex a1 (by simp)),
        rep45_sep (hsep s0 (by simp)), rep45_hex (hhex a2 (by simp)),
        rep45_hex (hhex a3 (by simp)), rep45_sep (hsep s1 (by simp)),
        rep45_hex (hhex a4 (by simp)), rep45_hex (hhex a5 (by simp)),
        rep45_sep (hsep s2 (by simp)), rep45_hex (hhex a6 (by simp)),
        rep45_hex (hhex a7 (by simp)), rep45_sep (hsep s3 (by simp)),
        rep45_hex (hhex a8 (by simp)), rep45_hex (hhex a9 (by simp)),
        rep45_sep (hsep s4 (by simp)), rep45_hex (hhex a10 (by simp)),
        rep45_hex (hhex a11 (by simp))]
      rfl
    rw [hmap, splitColon_colonJoin2 _
        (fun c hc => NxApi.isHexN_ne_colon (hhex c hc)) (by simp),
      joinColon_chunks2 _ (by simp) (by simp)] at h
    refine ⟨[a0, a1, a2, a3, a4, a5, a6, a7, a8, a9, a10, a11].map upperN,
      by simp, ?_, (Option.some.injEq _ _ ▸ h).symm⟩
    intro c hc
    simp only [List.mem_map] at hc
    obtain ⟨c0, hc0, rfl⟩ := hc
    exact NxApi.isHexN_upperN (hhex c0 hc0)

/-- `ssh_client.normalize_mac` maps canonical MACs to themselves. -/
theorem normalize_mac_of_canon {s : Str} (h : NxApi.IsCanonMac s) :
    normalize_mac s = some s := by
  obtain ⟨h12, hlen, hch, rfl⟩ := h
  obtain ⟨c0, l0, rfl, hl0⟩ := exists_cons_of_length_succ hlen
  obtain ⟨c1, l1, rfl, hl1⟩ := exists_cons_of_length_succ hl0
  obtain ⟨c2, l2, rfl, hl2⟩ := exists_cons_of_length_succ hl1
  obtain ⟨c3, l3, rfl, hl3⟩ := exists_cons_of_length_succ hl2
  obtain ⟨c4, l4, rfl, hl4⟩ := exists_cons_of_length_succ hl3
  obtain ⟨c5, l5, rfl, hl5⟩ := exists_cons_of_length_succ hl4
  obtain ⟨c6, l6, rfl, hl6⟩ := exists_cons_of_length_succ hl5
  obtain ⟨c7, l7, rfl, hl7⟩ := exists_cons_of_length_succ hl6
  obtain ⟨c8, l8, rfl, hl8⟩ := exists_cons_of_length_succ hl7
  obtain ⟨c9, l9, rfl, hl9⟩ := exists_cons_of_length_succ hl8
  obtain ⟨c10, l10, rfl, hl10⟩ := exists_cons_of_length_succ hl9
  obtain ⟨c11, l11, rfl, hl11⟩ := exists_cons_of_length_succ hl10
  obtain rfl : l11 = [] := List.length_eq_zero.mp hl11
  have hx : ∀ c ∈ [c0, c1, c2, c3, c4, c5, c6, c7, c8, c9, c10, c11],
      isHexN c = true := fun c hc => (hch c hc).1
  have h0 := hx c0 (by simp); have h1 := hx c1 (by simp)
  have h2 := hx c2 (by simp); have h3 := hx c3 (by simp)
  have h4 := hx c4 (by simp); have h5 := hx c5 (by simp)
  have h6 := hx c6 (by simp); have h7 := hx c7 (by simp)
  have h8 := hx c8 (by simp); have h9 := hx c9 (by simp)
  have h10 := hx c10 (by simp); have h11 := hx c11 (by simp)
  have hup : ([c0, c1, c2, c3, c4, c5, c6, c7, c8, c9, c10, c11].map upperN) =
      [c0, c1, c2, c3, c4, c5, c6, c7, c8, c9, c10, c11] := by
    simp only [List.map_cons, List.map_nil]
    rw [(hch c0 (by simp)).2, (hch c1 (by simp)).2, (hch c2 (by simp)).2,
      (hch c3 (by simp)).2, (hch c4 (by simp)).2, (hch c5 (by simp)).2,
      (hch c6 (by simp)).2, (hch c7 (by simp)).2, (hch c8 (by simp)).2,
      (hch c9 (by simp)).2, (hch c10 (by simp)).2, (hch c11 (by simp)).2]
  have hE : NxApi.colonJoin2 [c0, c1, c2, c3, c4, c5, c6, c7, c8, c9, c10, c11] =
      c0 :: c1 :: 58 :: c2 :: c3 :: 58 :: c4 :: c5 :: 58 :: c6 :: c7 :: 58 ::
        c8 :: c9 :: 58 :: c10 :: c11 :: [] := rfl
  have hwin : macWindow (c0 :: c1 :: 58 :: c2 :: c3 :: 58 :: c4 :: c5 :: 58 ::
      c6 :: c7 :: 58 :: c8 :: c9 :: 58 :: c10 :: c11 :: []) = true := by
    simp [macWindow, isSepN, h0, h1, h2, h3, h4, h5, h6, h7, h8, h9, h10, h11]
  have hmap : List.map (fun c => if c = 45 then 58 else c)
      (NxApi.colonJoin2 [c0, c1, c2, c3, c4, c5, c6, c7, c8, c9, c10, c11]) =
      NxApi.colonJoin2 [c0, c1, c2, c3, c4, c5, c6, c7, c8, c9, c10, c11] := by
    rw [hE]
    simp only [List.map_cons, List.map_nil]
    rw [rep45_hex h0, rep45_hex h1, rep45_hex h2, rep45_hex h3, rep45_hex h4,
      rep45_hex h5, rep45_hex h6, rep45_hex h7, rep45_hex h8, rep45_hex h9,
      rep45_hex h10, rep45_hex h11]
    rfl
  rw [hE]
  unfold normalize_mac
  rw [searchMac, if_pos hwin]
  have htake : (c0 :: c1 :: 58 :: c2 :: c3 :: 58 :: c4 :: c5 :: 58 :: c6 ::
      c7 :: 58 :: c8 :: c9 :: 58 :: c10 :: c11 :: []).take 17 =
      c0 :: c1 :: 58 :: c2 :: c3 :: 58 :: c4 :: c5 :: 58 :: c6 :: c7 :: 58 ::
        c8 :: c9 :: 58 :: c10 :: c11 :: [] := by
    simp [List.take_succ_cons]
  rw [htake]
  dsimp only
  rw [← hE, hmap, splitColon_colonJoin2 _
      (fun c hc => NxApi.isHexN_ne_colon (hx c hc)) (by simp),
    joinColon_chunks2 _ (by simp) (by simp), hup]

/-- Idempotence of `ssh_client.normalize_mac` on successful outputs. -/
theorem normalize_mac_idem {t s : Str} (h : normalize_mac t = some s) :
    normalize_mac s = some s :=
  normalize_mac_of_canon (normalize_mac_canon h)

end NxSsh

namespace NxRegistry

/-!
Embedding of `DeviceRegistry` from `custom_components/nx_controller/__init__.py`.
`self.devices` is a dict keyed by primary MAC whose values are dicts holding
`alias`, `macs` (a list) and `metadata` (`hostname`/`ipv4` hints).
-/

structure Meta where
  hostname : Option Str
  ipv4 : Option Str
deriving DecidableEq

structure RegInfo where
  aliasName : Str
  macs : List Str
  metadata : Meta
deriving DecidableEq

abbrev Reg : Type := List (Str × RegInfo)

/-- `DeviceRegistry._normalize_hostname`: `None`/empty are rejected, otherwise
strip then lowercase, with the empty result rejected too. -/
def normalizeHostname : Option Str → Option Str
  | none => none
  | some s =>
    if s = [] then none
    else if lowerS (stripS s) = [] then none
    else some (lowerS (stripS s))

/-- `DeviceRegistry._update_metadata`: hints overwrite but are never cleared. -/
def updateMetadata (m : Meta) (hostname ipv4 : Option Str) : Meta :=
  let m1 := match normalizeHostname hostname with
    | some nh => { m with hostname := some nh }
    | none => m
  match ipv4 with
  | some ip => if ip ≠ [] then { m1 with ipv4 := some ip } else m1
  | none => m1

/-- `DeviceRegistry.get_primary_for_mac`: first record with the caller's alias
whose member list contains the MAC. -/
def getPrimaryForMac (a mac : Str) : Reg → Option Str
  | [] => none
  | (p, info) :: t =>
    if info.aliasName = a ∧ mac ∈ info.macs then some p
    else getPrimaryForMac a mac t

/-- `self._update_metadata(self.devices[key], hostname, ipv4)`. -/
def regUpdateMetadata (reg : Reg) (key : Str) (hostname ipv4 : Option Str) : Reg :=
  match alGet reg key with
  | none => reg
  | some info =>
      alSet reg key { info with metadata := updateMetadata info.metadata hostname ipv4 }

/-- `DeviceRegistry.ensure_device`. -/
def ensureDevice (a mac : Str) (hostname ipv4 : Option Str) (reg : Reg) :
    Reg × Str :=
  match getPrimaryForMac a mac reg with
  | some existing => (reg, existing)
  | none =>
      (alSet reg mac
        { aliasName := a, macs := [mac],
          metadata := updateMetadata { hostname := none, ipv4 := none } hostname ipv4 },
        mac)

/-- `DeviceRegistry.add_mac`: merge `altMac` (and its previous same-alias owner,
if different) into the record of `primaryMac`. Raises `ValueError` when the
primary is unknown or has the wrong alias. -/
def addMac (a primaryMac altMac : Str) (reg : Reg) : Except String Reg :=
  match alGet reg primaryMac with
  | none => .error "Primary MAC not found"
  | some info =>
    if info.aliasName ≠ a then .error "Alias mismatch for primary device"
    else
      let st :=
        match getPrimaryForMac a altMac reg with
        | some altPrimary =>
          if altPrimary ≠ primaryMac then
            match alGet reg altPrimary with
            | some altInfo =>
                (alRemove reg altPrimary,
                  { info with
                    macs := altInfo.macs.foldl
                      (fun acc m => if m ∈ acc then acc else acc ++ [m]) info.macs,
                    metadata := updateMetadata info.metadata
                      altInfo.metadata.hostname altInfo.metadata.ipv4 })
            | none => (reg, info)
          else (reg, info)
        | none => (reg, info)
      let info2 :=
        if altMac ∈ st.2.macs then st.2
        else { st.2 with macs := st.2.macs ++ [altMac] }
      .ok (alSet st.1 primaryMac info2)

/-- One loop iteration of `DeviceRegistry.find_by_identity`, with
`target = self._normalize_hostname(hostname)` precomputed. -/
def findByIdentityLoop (a : Str) (target ipv4 : Option Str) : Reg → Option Str
  | [] => none
  | (p, info) :: t =>
    if info.aliasName = a then
      if target.isSome then
        if (normalizeHostname info.metadata.hostname).isSome ∧
            normalizeHostname info.metadata.hostname ≠ target then
          findByIdentityLoop a target ipv4 t
        else if truthyS ipv4 then
          if truthyS info.metadata.ipv4 ∧ info.metadata.ipv4 ≠ ipv4 then
            findByIdentityLoop a target ipv4 t
          else some p
        else findByIdentityLoop a target ipv4 t
      else
        if truthyS ipv4 then
          if (normalizeHostname info.metadata.hostname).isSome then
            findByIdentityLoop a target ipv4 t
          else if info.metadata.ipv4 = ipv4 then some p
          else findByIdentityLoop a target ipv4 t
        else findByIdentityLoop a target ipv4 t
    else findByIdentityLoop a target ipv4 t

/-- `DeviceRegistry.find_by_identity`. -/
def findByIdentity (a : Str) (hostname ipv4 : Option Str) (reg : Reg) :
    Option Str :=
  if ¬truthyS hostname ∧ ¬truthyS ipv4 then none
  else findByIdentityLoop a (normalizeHostname hostname) ipv4 reg

/-- `DeviceRegistry.map_mac`: returns the updated registry, the resolved
primary MAC and the `is_new` flag. -/
def mapMac (a mac : Str) (hostname ipv4 : Option Str) (reg : Reg) :
    Except String (Reg × Str × Bool) :=
  match getPrimaryForMac a mac reg with
  | some existing => .ok (regUpdateMetadata reg existing hostname ipv4, existing, false)
  | none =>
    match findByIdentity a hostname ipv4 reg with
    | some identityPrimary =>
      match addMac a identityPrimary mac reg with
      | .error e => .error e
      | .ok reg1 =>
          .ok (regUpdateMetadata reg1 identityPrimary hostname ipv4,
            identityPrimary, true)
    | none =>
      let r := ensureDevice a mac hostname ipv4 reg
      .ok (r.1, r.2, true)

end NxRegistry

namespace NxService

/-!
Embedding of the service handler `async_handle_map_mac` from
`custom_components/nx_controller/__init__.py`: normalize both MACs with
`ssh_client.normalize_mac`, find the coordinator whose alias matches, then
`registry.add_mac`. `knownAliases` stands for the aliases of the registered
coordinators in `hass.data`.
-/

def handleMapMac (knownAliases : List Str) (reg : NxRegistry.Reg)
    (a primaryRaw altRaw : Str) : Except String NxRegistry.Reg :=
  match NxSsh.normalize_mac primaryRaw, NxSsh.normalize_mac altRaw with
  | some p, some alt =>
    if a ∈ knownAliases then NxRegistry.addMac a p alt reg
    else .error "Alias not found"
  | _, _ => .error "Invalid MAC provided"

end NxService

namespace NxIdentity

/-!
Embedding of `custom_components/nx_controller/identity.py`: the persisted
`known_devices` mapping (`devices: primary → {"macs": [...]}` plus a
`pending` list), `_find_primary_mac`, `_register_secondary_mac`,
`_merge_device_entries` and `consolidate_devices`.
-/

structure Known where
  devices : List (Str × List Str)
  pending : List Str
deriving DecidableEq

/-- `_find_primary_mac`. -/
def findPrimaryMac (mac : Option Str) (kd : Known) : Option Str :=
  match NxApi.normalizeMacOpt mac with
  | none => none
  | some nm =>
    if nm ∈ alKeys kd.devices then some nm
    else firstOwner nm kd.devices
where
  firstOwner (nm : Str) : List (Str × List Str) → Option Str
    | [] => none
    | (p, macs) :: t => if nm ∈ macs then some p else firstOwner nm t

/-- The two membership-guarded list mutations on the primary's record:
`insert(0, normalized_primary)` and `append(normalized_new)`. -/
def regEntryAdd (np nm : Str) (entry0 : List Str) : List Str × Bool :=
  let st1 := if np ∉ entry0 then (np :: entry0, true) else (entry0, false)
  if nm ∉ st1.1 then (st1.1 ++ [nm], true) else st1

/-- The two guarded `pending.remove(...)` calls (new MAC first, primary
second). -/
def regPendingRemove (np nm : Str) (pending : List Str) (ch : Bool) :
    List Str × Bool :=
  let st3 := if nm ∈ pending then (eraseFirst pending nm, true) else (pending, ch)
  if np ∈ st3.1 then (eraseFirst st3.1 np, true) else st3

/-- One entry of the cleanup loop over `list(devices.items())`: the primary's
own record is kept, the new MAC is filtered out of every other record, and a
record emptied this way is dropped. -/
def regCleanup (np nm : Str) (e : Str × List Str) : Option (Str × List Str) :=
  if e.1 = np then some e
  else if nm ∈ e.2 then
    if e.2.filter (fun x => decide (x ≠ nm)) = [] then none
    else some (e.1, e.2.filter (fun x => decide (x ≠ nm)))
  else some e

/-- `_register_secondary_mac`. The cleanup loop over `list(devices.items())`
mutates each distinct key of the dict independently; on an association-list
model it is a `filterMap` over the entries. Returns the updated store and the
`changed` flag. -/
def registerSecondaryMac (primaryMac newMac : Str) (kd : Known) :
    Known × Bool :=
  match NxApi.normalizeMac primaryMac, NxApi.normalizeMac newMac with
  | some np, some nm =>
    let devices1 :=
      match alGet kd.devices np with
      | some _ => kd.devices
      | none => kd.devices ++ [(np, [np])]
    let entry0 := (alGet devices1 np).getD [np]
    let st2 := regEntryAdd np nm entry0
    let devices2 := alSet devices1 np st2.1
    let st4 := regPendingRemove np nm kd.pending st2.2
    let changed :=
      st4.2 || devices2.any (fun e => e.1 ≠ np && decide (nm ∈ e.2))
    ({ devices := devices2.filterMap (regCleanup np nm), pending := st4.1 },
      changed)
  | _, _ => (kd, false)

/-- Device payloads flowing through `consolidate_devices` and
`_merge_device_entries` (the dict keys those functions touch). -/
structure DevPayload where
  primary_mac : Str
  interfaces : List Str
  radios : List Str
  ipv4_addresses : List Str
  ipv6_addresses : List Str
  state : Option Str
  host : Option Str
  name : Option Str
  mac_addresses : List Str
  connections : List (List (Str × Str))
deriving DecidableEq

/-- Lexicographic comparison of code-point strings (Python `<=` on `str`). -/
def strLe : Str → Str → Bool
  | [], _ => true
  | _ :: _, [] => false
  | a :: s, b :: t => if a < b then true else if b < a then false else strLe s t

def pairLe (x y : Str × Str) : Bool :=
  if x.1 = y.1 then strLe x.2 y.2 else strLe x.1 y.1

def insertSorted {α : Type} (le : α → α → Bool) (x : α) : List α → List α
  | [] => [x]
  | y :: t => if le x y then x :: y :: t else y :: insertSorted le x t

def isort {α : Type} (le : α → α → Bool) : List α → List α
  | [] => []
  | x :: t => insertSorted le x (isort le t)

/-- `sorted(set(...))` over strings: deduplicate, then sort. -/
def sortedSet (l : List Str) : List Str := isort strLe l.dedup

/-- `_merge_device_entries(target, source)` (mutates `target` in place). -/
def mergeDeviceEntries (target source : DevPayload) : DevPayload :=
  let t1 :=
    if (source.interfaces.filter (fun x => decide (x ∉ target.interfaces))) ≠ [] then
      { target with interfaces := sortedSet (target.interfaces ++ source.interfaces) }
    else target
  let t2 :=
    if (source.radios.filter (fun x => decide (x ∉ t1.radios))) ≠ [] then
      { t1 with radios := sortedSet (t1.radios ++ source.radios) }
    else t1
  let t3 :=
    if (source.ipv4_addresses.filter (fun x => decide (x ∉ t2.ipv4_addresses))) ≠ [] then
      { t2 with ipv4_addresses := sortedSet (t2.ipv4_addresses ++ source.ipv4_addresses) }
    else t2
  let t4 :=
    if (source.ipv6_addresses.filter (fun x => decide (x ∉ t3.ipv6_addresses))) ≠ [] then
      { t3 with ipv6_addresses := sortedSet (t3.ipv6_addresses ++ source.ipv6_addresses) }
    else t3
  let t5 :=
    if truthyS source.state && !truthyS t4.state then
      { t4 with state := source.state }
    else t4
  let t6 :=
    if truthyS source.host && !truthyS t5.host then
      { t5 with host := source.host }
    else t5
  let t7 :=
    if truthyS source.name && !truthyS t6.name then
      { t6 with name := source.name }
    else t6
  let t8 :=
    if (source.mac_addresses.filter (fun x => decide (x ∉ t7.mac_addresses))) ≠ [] then
      { t7 with mac_addresses := sortedSet (t7.mac_addresses ++ source.mac_addresses) }
    else t7
  let conns := source.connections.foldl
    (fun acc c =>
      if isort pairLe c ∈ acc.map (isort pairLe) then acc else acc ++ [c])
    t8.connections
  { t8 with connections := conns }

/-- One iteration of the `consolidate_devices` loop. `bootstrap` is the flag
computed once at entry; the running state carries the consolidated output,
the known-devices store and the dirty flag. -/
def consolidateStep (bootstrap : Bool)
    (st : List (Str × DevPayload) × Known × Bool) (item : Str × DevPayload) :
    List (Str × DevPayload) × Known × Bool :=
  match NxApi.normalizeMac item.1 with
  | none => st
  | some nm =>
    let resolved :=
      match findPrimaryMac (some nm) st.2.1 with
      | some pm => some (pm, st.2.1, st.2.2)
      | none =>
        if bootstrap then
          some (nm, (registerSecondaryMac nm nm st.2.1).1, true)
        else none
    match resolved with
    | none =>
      if nm ∉ st.2.1.pending then
        (st.1, { st.2.1 with pending := st.2.1.pending ++ [nm] }, true)
      else st
    | some (pm, kd1, dirty1) =>
      let primaryKey := lowerS pm
      let knownMacs := ((alGet kd1.devices pm).getD []).map lowerS
      let candidates := sortedSet (primaryKey ::
        (knownMacs ++ item.2.mac_addresses.map lowerS))
      let payload := { item.2 with
        primary_mac := primaryKey, mac_addresses := candidates }
      match alGet st.1 primaryKey with
      | some existing =>
          (alSet st.1 primaryKey (mergeDeviceEntries existing payload), kd1, dirty1)
      | none => (st.1 ++ [(primaryKey, payload)], kd1, dirty1)

/-- `consolidate_devices(devices, known_devices)`: returns the consolidated
payload, the updated known-devices store and the dirty flag. -/
def consolidateDevices (devices : List (Str × DevPayload)) (kd : Known) :
    List (Str × DevPayload) × Known × Bool :=
  devices.foldl (consolidateStep (kd.devices = [] && kd.pending = [])) ([], kd, false)

end NxIdentity

namespace NxAgg

/-!
Embedding of `_DeviceAggregator.add_device` / `_attach_ip` from
`custom_components/nx_controller/api.py`. The `ipaddress.ip_address`
classification (IPv4 / IPv6 / ValueError) is an external library call,
modelled as an explicit classification function passed in.
-/

structure DiscoveredDevice where
  mac : Str
  interface : Str
  ip : Option Str
  state : Option Str
deriving DecidableEq

structure AggConn where
  interface : Str
  ip : Option Str
  state : Option Str
  radio : Option Str
deriving DecidableEq

structure AggregatedDevice where
  primary_mac : Str
  mac_addresses : List Str
  interfaces : List Str
  radios : List Str
  ipv4_addresses : List Str
  ipv6_addresses : List Str
  host : Option Str
  state : Option Str
  name : Option Str
  connections : List AggConn
deriving DecidableEq

def newAggregated (p : Str) : AggregatedDevice :=
  { primary_mac := p, mac_addresses := [], interfaces := [], radios := [],
    ipv4_addresses := [], ipv6_addresses := [], host := none, state := none,
    name := none, connections := [] }

structure AggState where
  entries : List (Str × AggregatedDevice)
  endpointToPrimary : List (Str × Str)
deriving DecidableEq

def emptyAgg : AggState := { entries := [], endpointToPrimary := [] }

inductive IpKind where
  | invalid
  | v4
  | v6
deriving DecidableEq

/-- Python `set.add` on a list model of a set. -/
def setAdd (l : List Str) (x : Str) : List Str := if x ∈ l then l else l ++ [x]

/-- `_DeviceAggregator._attach_ip`. -/
def attachIp (classify : Str → IpKind) (e : AggregatedDevice)
    (ipValue : Option Str) : AggregatedDevice :=
  match ipValue with
  | none => e
  | some ip =>
    if ip = [] then e
    else
      match classify ip with
      | .invalid => { e with host := some ip }
      | .v4 => { e with ipv4_addresses := setAdd e.ipv4_addresses ip }
      | .v6 => { e with ipv6_addresses := setAdd e.ipv6_addresses ip }

/-- The primary-resolution chain of `add_device`:
`self._endpoint_to_primary.get(mac) or (device.ip and
self._endpoint_to_primary.get(device.ip)) or mac`. -/
def resolvePrimary (st : AggState) (d : DiscoveredDevice) : Str :=
  let mac := lowerS d.mac
  let step1 := alGet st.endpointToPrimary mac
  let step2 :=
    if truthyS d.ip then alGet st.endpointToPrimary (d.ip.getD []) else none
  if truthyS step1 then step1.getD []
  else if truthyS step2 then step2.getD []
  else mac

/-- The per-entry mutations of `add_device` (MAC/interface/radio sets,
connection detail, state, `_attach_ip`). -/
def updateEntry (wifiRadios : List (Str × Str)) (classify : Str → IpKind)
    (d : DiscoveredDevice) (entry0 : AggregatedDevice) : AggregatedDevice :=
  let e1 := { entry0 with mac_addresses := setAdd entry0.mac_addresses (lowerS d.mac) }
  let e2 := { e1 with interfaces := setAdd e1.interfaces d.interface }
  let radio := alGet wifiRadios d.interface
  let e3 :=
    if truthyS radio then { e2 with radios := setAdd e2.radios (radio.getD []) }
    else e2
  let conn : AggConn :=
    { interface := d.interface, ip := d.ip, state := d.state,
      radio := if truthyS radio then radio else none }
  let e4 := { e3 with connections := e3.connections ++ [conn] }
  let e5 := if truthyS d.state then { e4 with state := d.state } else e4
  attachIp classify e5 d.ip

/-- `_DeviceAggregator.add_device`. `wifiRadios` is `self._wifi_radios`. -/
def addDevice (wifiRadios : List (Str × Str)) (classify : Str → IpKind)
    (st : AggState) (d : DiscoveredDevice) : AggState :=
  let mac := lowerS d.mac
  let primary := resolvePrimary st d
  let ep1 := alSetdefault st.endpointToPrimary mac primary
  let ep2 :=
    if truthyS d.ip then alSetdefault ep1 (d.ip.getD []) primary else ep1
  let entries1 :=
    match alGet st.entries primary with
    | some _ => st.entries
    | none => st.entries ++ [(primary, newAggregated primary)]
  let entry0 := (alGet entries1 primary).getD (newAggregated primary)
  { entries := alSet entries1 primary (updateEntry wifiRadios classify d entry0),
    endpointToPrimary := ep2 }

theorem updateEntry_primary_mac (wifiRadios : List (Str × Str))
    (classify : Str → IpKind) (d : DiscoveredDevice) (e0 : AggregatedDevice) :
    (updateEntry wifiRadios classify d e0).primary_mac = e0.primary_mac := by
  unfold updateEntry attachIp
  dsimp only
  repeat' split
  all_goals rfl

theorem updateEntry_mac_addresses (wifiRadios : List (Str × Str))
    (classify : Str → IpKind) (d : DiscoveredDevice) (e0 : AggregatedDevice) :
    (updateEntry wifiRadios classify d e0).mac_addresses =
      setAdd e0.mac_addresses (lowerS d.mac) := by
  unfold updateEntry attachIp
  dsimp only
  repeat' split
  all_goals rfl

end NxAgg

namespace NxCoord

/-!
Embedding of the tail of `NxControllerCoordinator._async_update_data`
(`custom_components/nx_controller/__init__.py` lines 329-344): every device of
the registry under the coordinator's alias that produced no sighting this
cycle is still emitted, offline, carrying the previous cycle's attributes
forward (or default-initialized from the stored member MACs).
-/

structure NxClient where
  primary_mac : Str
  aliasName : Str
  macs : List Str
  hostname : Option Str
  ipv4 : Option Str
  ipv6 : Option Str
  interface : Option Str
  connection_type : Option Str
  rx_bytes : Option Int
  tx_bytes : Option Int
  signal_dbm : Option Int
  last_seen : Option Str
  dhcp_source : Option Str
  online : Bool
deriving DecidableEq

/-- `NxClient(primary_mac=primary, alias=self.alias, macs=set(...), online=False)`. -/
def defaultClient (p a : Str) (macs : List Str) : NxClient :=
  { primary_mac := p, aliasName := a, macs := macs, hostname := none,
    ipv4 := none, ipv6 := none, interface := none, connection_type := none,
    rx_bytes := none, tx_bytes := none, signal_dbm := none, last_seen := none,
    dhcp_source := none, online := false }

/-- One iteration of the carry-forward loop: skip other aliases, skip devices
already present in this cycle's `clients`, otherwise emit the previous
snapshot with `online=False` (or a default-initialized client). -/
def cfStep (a : Str) (previous : List (Str × NxClient))
    (acc : List (Str × NxClient)) (e : Str × NxRegistry.RegInfo) :
    List (Str × NxClient) :=
  if e.2.aliasName ≠ a then acc
  else if e.1 ∈ alKeys acc then acc
  else
    match alGet previous e.1 with
    | some prev => acc ++ [(e.1, { prev with online := false })]
    | none => acc ++ [(e.1, defaultClient e.1 a e.2.macs)]

/-- The carry-forward loop over `self.registry.devices`. -/
def carryForward (a : Str) (regDevices : NxRegistry.Reg)
    (previous clients : List (Str × NxClient)) : List (Str × NxClient) :=
  regDevices.foldl (cfStep a previous) clients

end NxCoord

/-! Generic association-list lemmas. -/

theorem alGet_alSet_self {α : Type} (l : List (Str × α)) (k : Str) (v : α) :
    alGet (alSet l k v) k = some v := by
  induction l with
  | nil => simp [alSet, alGet]
  | cons e t ih =>
    by_cases he : e.1 = k
    · obtain ⟨k0, v0⟩ := e
      simp_all [alSet, alGet]
    · obtain ⟨k0, v0⟩ := e
      simp only at he
      rw [alSet, if_neg he, alGet, if_neg he]
      exact ih

theorem alGet_eq_none_iff {α : Type} (l : List (Str × α)) (q : Str) :
    alGet l q = none ↔ q ∉ alKeys l := by
  induction l with
  | nil => simp [alGet, alKeys]
  | cons e t ih =>
    obtain ⟨k, v⟩ := e
    by_cases hk : k = q
    · subst hk
      simp [alGet, alKeys]
    · rw [alGet, if_neg hk]
      simp only [alKeys, List.map_cons, List.mem_cons]
      rw [ih]
      simp [alKeys]
      tauto

theorem alGet_append_of_some {α : Type} {l1 : List (Str × α)} {q : Str}
    {v : α} (h : alGet l1 q = some v) (l2 : List (Str × α)) :
    alGet (l1 ++ l2) q = some v := by
  induction l1 with
  | nil => simp [alGet] at h
  | cons e t ih =>
    obtain ⟨k, w⟩ := e
    by_cases hk : k = q
    · subst hk
      rw [alGet, if_pos rfl] at h
      simpa [alGet] using h
    · rw [alGet, if_neg hk] at h
      rw [List.cons_append, alGet, if_neg hk]
      exact ih h

theorem alGet_append_of_none {α : Type} {l1 : List (Str × α)} {q : Str}
    (h : alGet l1 q = none) (l2 : List (Str × α)) :
    alGet (l1 ++ l2) q = alGet l2 q := by
  induction l1 with
  | nil => rfl
  | cons e t ih =>
    obtain ⟨k, w⟩ := e
    by_cases hk : k = q
    · subst hk
      rw [alGet, if_pos rfl] at h
      exact absurd h (by simp)
    · rw [alGet, if_neg hk] at h
      rw [List.cons_append, alGet, if_neg hk]
      exact ih h

theorem alKeys_append {α : Type} (l1 l2 : List (Str × α)) :
    alKeys (l1 ++ l2) = alKeys l1 ++ alKeys l2 := by
  simp [alKeys]

theorem mem_alSetdefault {α : Type} {l : List (Str × α)} {k : Str} {v : α}
    {x : Str × α} (h : x ∈ alSetdefault l k v) : x ∈ l ∨ x = (k, v) := by
  unfold alSetdefault at h
  split at h
  · exact Or.inl h
  · rcases List.mem_append.mp h with h1 | h1
    · exact Or.inl h1
    · exact Or.inr (by simpa using h1)

theorem alGet_mem {α : Type} {l : List (Str × α)} {q : Str} {v : α}
    (h : alGet l q = some v) : (q, v) ∈ l := by
  induction l with
  | nil => simp [alGet] at h
  | cons e t ih =>
    obtain ⟨k, w⟩ := e
    by_cases hk : k = q
    · subst hk
      rw [alGet, if_pos rfl] at h
      obtain rfl : w = v := by injection h
      exact List.mem_cons_self _ _
    · rw [alGet, if_neg hk] at h
      exact List.mem_cons_of_mem _ (ih h)

theorem alSet_alGet_self {α : Type} {l : List (Str × α)} {k : Str} {v : α}
    (h : alGet l k = some v) : alSet l k v = l := by
  induction l with
  | nil => simp [alGet] at h
  | cons e t ih =>
    obtain ⟨k0, w⟩ := e
    by_cases hk : k0 = k
    · subst hk
      rw [alGet, if_pos rfl] at h
      obtain rfl : w = v := by injection h
      rw [alSet, if_pos rfl]
    · rw [alGet, if_neg hk] at h
      rw [alSet, if_neg hk, ih h]

theorem mem_eraseFirst {l : List Str} {x y : Str} (h : x ∈ eraseFirst l y) :
    x ∈ l := by
  induction l with
  | nil => simp [eraseFirst] at h
  | cons z t ih =>
    rw [eraseFirst] at h
    split_ifs at h
    · exact List.mem_cons_of_mem _ h
    · rcases List.mem_cons.mp h with rfl | h2
      · exact List.mem_cons_self _ _
      · exact List.mem_cons_of_mem _ (ih h2)

theorem nodup_eraseFirst {l : List Str} {y : Str} (h : l.Nodup) :
    (eraseFirst l y).Nodup := by
  induction l with
  | nil => simp [eraseFirst]
  | cons z t ih =>
    rw [eraseFirst]
    obtain ⟨hz, ht⟩ := List.nodup_cons.mp h
    split_ifs
    · exact ht
    · exact List.nodup_cons.mpr ⟨fun hc => hz (mem_eraseFirst hc), ih ht⟩

theorem not_mem_eraseFirst_self {l : List Str} {y : Str} (h : l.Nodup) :
    y ∉ eraseFirst l y := by
  induction l with
  | nil => simp [eraseFirst]
  | cons z t ih =>
    rw [eraseFirst]
    obtain ⟨hz, ht⟩ := List.nodup_cons.mp h
    split_ifs with hzy
    · subst hzy
      exact hz
    · intro hc
      rcases List.mem_cons.mp hc with rfl | h2
      · exact hzy rfl
      · exact ih ht h2

theorem filterMap_id_of {α : Type} {f : α → Option α} {l : List α}
    (h : ∀ e ∈ l, f e = some e) : l.filterMap f = l := by
  induction l with
  | nil => rfl
  | cons e t ih =>
    rw [List.filterMap_cons, h e (List.mem_cons_self _ _),
      ih (fun x hx => h x (List.mem_cons_of_mem _ hx))]

theorem alKeys_alSet_of_mem {α : Type} (l : List (Str × α)) (k : Str) (v : α)
    (hk : k ∈ alKeys l) : alKeys (alSet l k v) = alKeys l := by
  induction l with
  | nil => simp [alKeys] at hk
  | cons e t ih =>
    obtain ⟨k0, v0⟩ := e
    by_cases he : k0 = k
    · subst he
      rw [alSet, if_pos rfl]
      rfl
    · rw [alSet, if_neg he]
      have hk2 : k ∈ alKeys t := by
        simp [alKeys] at hk
        rcases hk with h | h
        · exact absurd h.symm he
        · simpa [alKeys] using h
      simp only [alKeys, List.map_cons]
      exact congrArg (k0 :: ·) (ih hk2)

namespace NxRegistry

/-! Alias-scoping lemmas for the registry lookups. -/

theorem getPrimaryForMac_filter (a mac : Str) (reg : Reg) :
    getPrimaryForMac a mac reg =
      getPrimaryForMac a mac
        (reg.filter (fun e => decide (e.2.aliasName = a))) := by
  induction reg with
  | nil => rfl
  | cons e t ih =>
    obtain ⟨p, info⟩ := e
    by_cases he : info.aliasName = a
    · rw [List.filter_cons, if_pos (by simp [he])]
      simp only [getPrimaryForMac]
      split_ifs
      · rfl
      · exact ih
    · rw [List.filter_cons, if_neg (by simp [he])]
      simp only [getPrimaryForMac]
      rw [if_neg (by tauto)]
      exact ih

theorem findByIdentityLoop_filter (a : Str) (target ipv4 : Option Str)
    (reg : Reg) :
    findByIdentityLoop a target ipv4 reg =
      findByIdentityLoop a target ipv4
        (reg.filter (fun e => decide (e.2.aliasName = a))) := by
  induction reg with
  | nil => rfl
  | cons e t ih =>
    obtain ⟨p, info⟩ := e
    by_cases he : info.aliasName = a
    · rw [List.filter_cons, if_pos (by simp [he])]
      simp only [findByIdentityLoop]
      split_ifs <;> first | rfl | exact ih
    · rw [List.filter_cons, if_neg (by simp [he])]
      simp only [findByIdentityLoop]
      rw [if_neg he]
      exact ih

/-- The overwrite behaviour of `ensure_device`: when the MAC is not resolvable
under the caller's alias, the record stored at key `mac` is replaced by a
fresh record for that alias — no second record is created even when another
alias already owns that key. -/
theorem ensureDevice_overwrite (a2 mac : Str) (h ip : Option Str) (reg : Reg)
    (hnone : getPrimaryForMac a2 mac reg = none) :
    (ensureDevice a2 mac h ip reg).2 = mac ∧
    alGet (ensureDevice a2 mac h ip reg).1 mac =
      some { aliasName := a2, macs := [mac],
             metadata := updateMetadata { hostname := none, ipv4 := none } h ip } ∧
    (mac ∈ alKeys reg → alKeys (ensureDevice a2 mac h ip reg).1 = alKeys reg) := by
  unfold ensureDevice
  rw [hnone]
  exact ⟨rfl, alGet_alSet_self reg mac _, fun hm => alKeys_alSet_of_mem reg mac _ hm⟩

end NxRegistry

/-! Concrete values for the scenario claims. -/

def exAlias : Str := strOf "ap1"

def macAA : Str := strOf "AA:AA:AA:AA:AA:AA"

def macBB : Str := strOf "BB:BB:BB:BB:BB:BB"

def macCC : Str := strOf "CC:CC:CC:CC:CC:CC"

def macDD : Str := strOf "DD:DD:DD:DD:DD:DD"

def hostPrinter : Str := strOf "printer"

def hostPhone : Str := strOf "phone"

def ip5 : Str := strOf "10.0.0.5"

def ip9 : Str := strOf "10.0.0.9"

/-- Registry holding one identity established by the bare-IP sighting
`{mac=CC, hostname=None, ip=10.0.0.9}` (the setup of the C2 scenario). -/
def c2Store : NxRegistry.Reg :=
  match NxRegistry.mapMac exAlias macCC none (some ip9) [] with
  | .ok (r, _, _) => r
  | .error _ => []

/-- The registry after the second C2 sighting `{mac=DD, hostname="phone",
ip=10.0.0.9}`. -/
def c2After : NxRegistry.Reg :=
  match NxRegistry.mapMac exAlias macDD (some hostPhone) (some ip9) c2Store with
  | .ok (r, _, _) => r
  | .error _ => []

/-- C2 counterexample: contrary to the claim, the hostname-bearing sighting
`{mac=DD, hostname="phone", ip=10.0.0.9}` IS merged into the bare-IP identity
`CC` (`find_by_identity` matches a record whose stored hostname is null when
the IPv4 hints agree), so no second primary is created: the call returns
primary `CC` with `is_new=true`, `CC`'s member list becomes `[CC, DD]`, and
the store still holds exactly one record. -/
theorem C2_counterexample :
    NxRegistry.mapMac exAlias macDD (some hostPhone) (some ip9) c2Store =
      .ok (c2After, macCC, true) ∧
    (alGet c2After macCC).map NxRegistry.RegInfo.macs = some [macCC, macDD] ∧
    alKeys c2After = [macCC] := by
  refine ⟨rfl, by decide, by decide⟩

/-- C2 amended: in the C2 scenario the resolver DOES merge `DD` into `CC`'s
identity: `find_by_identity` returns `CC` (a stored-null-hostname record
matches any hostname hint when the stored IPv4 equals the hint), the call
reports `(CC, is_new=true)`, and the single resulting record has member list
`[CC, DD]`. -/
theorem C2_amended_theorem :
    NxRegistry.findByIdentity exAlias (some hostPhone) (some ip9) c2Store =
      some macCC ∧
    NxRegistry.mapMac exAlias macDD (some hostPhone) (some ip9) c2Store =
      .ok (c2After, macCC, true) ∧
    (alGet c2After macCC).map NxRegistry.RegInfo.macs = some [macCC, macDD] ∧
    c2After.length = 1 := by
  refine ⟨by decide, rfl, by decide, by decide⟩

/-- Registry after resolving `{mac=AA, hostname="printer", ip=10.0.0.5}` on an
empty store (the setup of the C3 scenario). -/
def c3Store : NxRegistry.Reg :=
  match NxRegistry.mapMac exAlias macAA (some hostPrinter) (some ip5) [] with
  | .ok (r, _, _) => r
  | .error _ => []

/-- The registry after the second C3 sighting `{mac=BB, hostname="printer",
ip=10.0.0.5}`. -/
def c3After : NxRegistry.Reg :=
  match NxRegistry.mapMac exAlias macBB (some hostPrinter) (some ip5) c3Store with
  | .ok (r, _, _) => r
  | .error _ => []

/-- C3: on an empty store, `{mac=AA, hostname="printer", ip=10.0.0.5}` creates
primary `AA`; the subsequent `{mac=BB, hostname="printer", ip=10.0.0.5}`
resolves to `AA` through the hostname+IP identity match
(`find_by_identity = AA`), reports `is_new=true`, and leaves `AA`'s member
list equal to `[AA, BB]`. -/
theorem C3_theorem :
    NxRegistry.mapMac exAlias macAA (some hostPrinter) (some ip5) [] =
      .ok (c3Store, macAA, true) ∧
    NxRegistry.findByIdentity exAlias (some hostPrinter) (some ip5) c3Store =
      some macAA ∧
    NxRegistry.mapMac exAlias macBB (some hostPrinter) (some ip5) c3Store =
      .ok (c3After, macAA, true) ∧
    (alGet c3After macAA).map NxRegistry.RegInfo.macs = some [macAA, macBB] := by
  refine ⟨rfl, by decide, rfl, by decide⟩

/-- C8: both MAC normalizers are total functions into `Option`; every
successful result is a canonical colon-separated uppercase MAC, and
renormalizing a successful result returns it unchanged (idempotence). -/
theorem C8_theorem :
    (∀ t s : Str, NxApi.normalizeMac t = some s →
      NxApi.IsCanonMac s ∧ NxApi.normalizeMac s = some s) ∧
    (∀ t s : Str, NxSsh.normalize_mac t = some s →
      NxApi.IsCanonMac s ∧ NxSsh.normalize_mac s = some s) :=
  ⟨fun _ _ h => ⟨NxApi.normalizeMac_canon h, NxApi.normalizeMac_idem h⟩,
   fun _ _ h => ⟨NxSsh.normalize_mac_canon h, NxSsh.normalize_mac_idem h⟩⟩

/-- Witness for C8 at concrete inputs. -/
theorem C8_witness :
    NxApi.normalizeMac (strOf "aa-bb-cc-dd-ee-ff") =
      some (strOf "AA:BB:CC:DD:EE:FF") ∧
    NxApi.normalizeMac (strOf "AA:BB:CC:DD:EE:FF") =
      some (strOf "AA:BB:CC:DD:EE:FF") ∧
    NxSsh.normalize_mac (strOf "x 00:1a:2b-3c:4d:5e y") =
      some (strOf "00:1A:2B:3C:4D:5E") ∧
    NxSsh.normalize_mac (strOf "00:1A:2B:3C:4D:5E") =
      some (strOf "00:1A:2B:3C:4D:5E") :=
  ⟨by decide,
   (C8_theorem.1 (strOf "aa-bb-cc-dd-ee-ff") (strOf "AA:BB:CC:DD:EE:FF")
     (by decide)).2,
   by decide,
   (C8_theorem.2 (strOf "x 00:1a:2b-3c:4d:5e y") (strOf "00:1A:2B:3C:4D:5E")
     (by decide)).2⟩

/-- C5 counterexample: the `map_mac` service handler is called with two MACs
that both normalize and a registered alias, yet it fails: with an empty
registry the primary MAC is not a known identity and `add_mac` raises
`"Primary MAC not found"` instead of self-registering the primary. -/
theorem C5_counterexample :
    NxSsh.normalize_mac macAA = some macAA ∧
    NxSsh.normalize_mac macBB = some macBB ∧
    NxService.handleMapMac [exAlias] [] exAlias macAA macBB =
      .error "Primary MAC not found" := by
  refine ⟨by decide, by decide, rfl⟩

/-- C5 amended: the service call succeeds exactly when both MACs normalize,
the alias belongs to a registered coordinator, AND the primary MAC is already
a stored record under that alias; an unknown primary is never self-registered
— the call errors (and, errors carrying no state, the store is unchanged). -/
theorem C5_amended_theorem (als : List Str) (reg : NxRegistry.Reg)
    (a p b : Str) :
    (∃ r, NxService.handleMapMac als reg a p b = .ok r) ↔
      ∃ np, NxSsh.normalize_mac p = some np ∧
        (NxSsh.normalize_mac b).isSome = true ∧ a ∈ als ∧
        ∃ info, alGet reg np = some info ∧ info.aliasName = a := by
  rcases hp : NxSsh.normalize_mac p with _ | np
  · simp [NxService.handleMapMac, hp]
  rcases hb : NxSsh.normalize_mac b with _ | nb
  · simp [NxService.handleMapMac, hp, hb]
  by_cases ha : a ∈ als
  · simp only [NxService.handleMapMac, hp, hb, if_pos ha]
    unfold NxRegistry.addMac
    rcases hg : alGet reg np with _ | info
    · simp [hg, hb, ha]
    · by_cases hal : info.aliasName = a
      · simp only [hal, ne_eq, not_true_eq_false, if_false]
        constructor
        · intro _
          exact ⟨np, rfl, by simp, ha, info, hg, hal⟩
        · intro _
          exact ⟨_, rfl⟩
      · simp only [ne_eq, hal, not_false_eq_true, if_true]
        constructor
        · rintro ⟨r, hr⟩
          exact absurd hr (by simp)
        · rintro ⟨np2, hnp2, _, _, info2, hg2, hal2⟩
          obtain rfl : np = np2 := by injection hnp2
          rw [hg] at hg2
          obtain rfl : info = info2 := by injection hg2
          exact absurd hal2 hal
  · simp [NxService.handleMapMac, hp, hb, ha]

def c10Alias2 : Str := strOf "ap2"

def macEE : Str := strOf "EE:EE:EE:EE:EE:EE"

/-- Registry after observing `EE` under alias `ap1`. -/
def c10Store : NxRegistry.Reg :=
  match NxRegistry.mapMac exAlias macEE (some hostPrinter) (some ip5) [] with
  | .ok (r, _, _) => r
  | .error _ => []

/-- Registry after then observing the same `EE` under alias `ap2`. -/
def c10After : NxRegistry.Reg :=
  match NxRegistry.mapMac c10Alias2 macEE none (some ip9) c10Store with
  | .ok (r, _, _) => r
  | .error _ => []

/-- C10 counterexample: the lookups are alias-scoped, but `devices` is keyed
by MAC alone, so observing the same MAC under a second alias does NOT create
two independent records: `ensure_device` overwrites the key, leaving a single
record that now belongs to the second alias. -/
theorem C10_counterexample :
    (alGet c10Store macEE).map NxRegistry.RegInfo.aliasName = some exAlias ∧
    NxRegistry.mapMac c10Alias2 macEE none (some ip9) c10Store =
      .ok (c10After, macEE, true) ∧
    alKeys c10After = [macEE] ∧
    c10After.length = 1 ∧
    (alGet c10After macEE).map NxRegistry.RegInfo.aliasName = some c10Alias2 := by
  refine ⟨by decide, rfl, by decide, by decide, by decide⟩

/-- C10 amended: every registry lookup considers only records whose stored
alias matches the caller's (restricting the store to the alias changes
nothing), so uniqueness is per alias; but because `devices` is keyed by the
MAC alone, a MAC unresolvable under the caller's alias is re-registered by
replacing whatever record sits at that key — the same MAC under two aliases
yields one surviving record, not two independent ones. -/
theorem C10_amended_theorem :
    (∀ a mac reg, NxRegistry.getPrimaryForMac a mac reg =
      NxRegistry.getPrimaryForMac a mac
        (reg.filter (fun e => decide (e.2.aliasName = a)))) ∧
    (∀ a target ipv4 reg, NxRegistry.findByIdentityLoop a target ipv4 reg =
      NxRegistry.findByIdentityLoop a target ipv4
        (reg.filter (fun e => decide (e.2.aliasName = a)))) ∧
    (∀ a2 mac h ip reg, NxRegistry.getPrimaryForMac a2 mac reg = none →
      (NxRegistry.ensureDevice a2 mac h ip reg).2 = mac ∧
      alGet (NxRegistry.ensureDevice a2 mac h ip reg).1 mac =
        some { aliasName := a2, macs := [mac],
               metadata := NxRegistry.updateMetadata
                 { hostname := none, ipv4 := none } h ip } ∧
      (mac ∈ alKeys reg →
        alKeys (NxRegistry.ensureDevice a2 mac h ip reg).1 = alKeys reg)) :=
  ⟨NxRegistry.getPrimaryForMac_filter, NxRegistry.findByIdentityLoop_filter,
   fun a2 mac h ip reg hnone => NxRegistry.ensureDevice_overwrite a2 mac h ip reg hnone⟩

/-- Witness for C10 at a concrete two-alias store. -/
theorem C10_amended_witness :
    (NxRegistry.ensureDevice c10Alias2 macEE none (some ip9) c10Store).2 = macEE ∧
    alGet (NxRegistry.ensureDevice c10Alias2 macEE none (some ip9) c10Store).1 macEE =
      some { aliasName := c10Alias2, macs := [macEE],
             metadata := NxRegistry.updateMetadata
               { hostname := none, ipv4 := none } none (some ip9) } ∧
    alKeys (NxRegistry.ensureDevice c10Alias2 macEE none (some ip9) c10Store).1 =
      alKeys c10Store := by
  have h := C10_amended_theorem.2.2 c10Alias2 macEE none (some ip9) c10Store
    (by decide)
  exact ⟨h.1, h.2.1, h.2.2 (by decide)⟩

namespace NxCoord

theorem cfStep_preserves (a : Str) (previous acc : List (Str × NxClient))
    (e : Str × NxRegistry.RegInfo) {q : Str} {v : NxClient}
    (h : alGet acc q = some v) : alGet (cfStep a previous acc e) q = some v := by
  unfold cfStep
  split_ifs
  · exact h
  · exact h
  · split <;> exact alGet_append_of_some h _

theorem cfFold_preserves (a : Str) (previous : List (Str × NxClient))
    (l : NxRegistry.Reg) :
    ∀ (acc : List (Str × NxClient)) {q : Str} {v : NxClient},
      alGet acc q = some v →
      alGet (l.foldl (cfStep a previous) acc) q = some v := by
  induction l with
  | nil => intro acc q v h; exact h
  | cons e t ih =>
    intro acc q v h
    exact ih _ (cfStep_preserves a previous acc e h)

theorem cfStep_keys (a : Str) (previous acc : List (Str × NxClient))
    (e : Str × NxRegistry.RegInfo) :
    alKeys (cfStep a previous acc e) = alKeys acc ∨
    alKeys (cfStep a previous acc e) = alKeys acc ++ [e.1] := by
  unfold cfStep
  split_ifs
  · exact Or.inl rfl
  · exact Or.inl rfl
  · split <;> exact Or.inr (by rw [alKeys_append]; rfl)

theorem cfFold_keys_mono (a : Str) (previous : List (Str × NxClient))
    (l : NxRegistry.Reg) :
    ∀ (acc : List (Str × NxClient)) {q : Str}, q ∈ alKeys acc →
      q ∈ alKeys (l.foldl (cfStep a previous) acc) := by
  induction l with
  | nil => intro acc q h; exact h
  | cons e t ih =>
    intro acc q h
    refine ih _ ?_
    rcases cfStep_keys a previous acc e with he | he <;> rw [he] <;> simp [h]

theorem cfFold_emits (a : Str) (previous : List (Str × NxClient))
    (l : NxRegistry.Reg) :
    ∀ (acc : List (Str × NxClient)) (p : Str) (info : NxRegistry.RegInfo),
      (p, info) ∈ l → (l.map Prod.fst).Nodup → info.aliasName = a →
      p ∉ alKeys acc →
      alGet (l.foldl (cfStep a previous) acc) p =
        some (match alGet previous p with
              | some prev => { prev with online := false }
              | none => defaultClient p a info.macs) := by
  induction l with
  | nil => intro acc p info hmem; simp at hmem
  | cons e t ih =>
    intro acc p info hmem hnodup halias hnot
    rcases List.mem_cons.mp hmem with heq | htail
    · subst heq
      have hstep : alGet (cfStep a previous acc (p, info)) p =
          some (match alGet previous p with
                | some prev => { prev with online := false }
                | none => defaultClient p a info.macs) := by
        unfold cfStep
        rw [if_neg (by simpa using halias), if_neg (by simpa using hnot)]
        have hga : alGet acc p = none := (alGet_eq_none_iff acc p).mpr hnot
        split
        · rename_i prev hprev
          rw [alGet_append_of_none hga, hprev]
          simp [alGet]
        · rename_i hprev
          rw [alGet_append_of_none hga, hprev]
          simp [alGet]
      exact cfFold_preserves a previous t _ hstep
    · have hne : e.1 ≠ p := by
        intro hcontr
        have : p ∈ t.map Prod.fst :=
          List.mem_map.mpr ⟨(p, info), htail, rfl⟩
        rw [List.map_cons, hcontr] at hnodup
        exact (List.nodup_cons.mp hnodup).1 this
      have hnot2 : p ∉ alKeys (cfStep a previous acc e) := by
        rcases cfStep_keys a previous acc e with he | he <;> rw [he]
        · exact hnot
        · simp only [List.mem_append, List.mem_singleton]
          rintro (h | h)
          · exact hnot h
          · exact hne h.symm
      exact ih _ p info htail (by
        rw [List.map_cons] at hnodup
        exact (List.nodup_cons.mp hnodup).2) halias hnot2

theorem cfFold_never_dropped (a : Str) (previous : List (Str × NxClient))
    (l : NxRegistry.Reg) :
    ∀ (acc : List (Str × NxClient)) (p : Str) (info : NxRegistry.RegInfo),
      (p, info) ∈ l → info.aliasName = a →
      p ∈ alKeys (l.foldl (cfStep a previous) acc) := by
  induction l with
  | nil => intro acc p info hmem; simp at hmem
  | cons e t ih =>
    intro acc p info hmem halias
    rcases List.mem_cons.mp hmem with heq | htail
    · subst heq
      refine cfFold_keys_mono a previous t _ ?_
      by_cases hin : p ∈ alKeys acc
      · rcases cfStep_keys a previous acc (p, info) with he | he <;>
          rw [he] <;> simp [hin]
      · unfold cfStep
        rw [if_neg (by simpa using halias), if_neg (by simpa using hin)]
        split <;> rw [alKeys_append] <;> simp [alKeys]
    · exact ih _ p info htail halias

end NxCoord

/-- C7: a known device with zero sightings (its primary is not a key of this
cycle's `clients`) is still emitted: the output maps its primary to the
previous cycle's snapshot with only `online` flipped to `False`, or to a
default client built from the stored member MACs when there is no previous
snapshot; every alias-matching known device appears in the output, and the
entries built from this cycle's sightings are left untouched. -/
theorem C7_theorem (a : Str) (regDevices : NxRegistry.Reg)
    (previous clients : List (Str × NxCoord.NxClient))
    (hnodup : (regDevices.map Prod.fst).Nodup) :
    (∀ p info, (p, info) ∈ regDevices → info.aliasName = a →
      p ∉ alKeys clients →
      alGet (NxCoord.carryForward a regDevices previous clients) p =
        some (match alGet previous p with
              | some prev => { prev with online := false }
              | none => NxCoord.defaultClient p a info.macs)) ∧
    (∀ p info, (p, info) ∈ regDevices → info.aliasName = a →
      p ∈ alKeys (NxCoord.carryForward a regDevices previous clients)) ∧
    (∀ q v, alGet clients q = some v →
      alGet (NxCoord.carryForward a regDevices previous clients) q = some v) :=
  ⟨fun p info hmem halias hnot =>
      NxCoord.cfFold_emits a previous regDevices clients p info hmem hnodup
        halias hnot,
   fun p info hmem halias =>
      NxCoord.cfFold_never_dropped a previous regDevices clients p info hmem
        halias,
   fun _ _ h => NxCoord.cfFold_preserves a previous regDevices clients h⟩

/-- C9: within one collection cycle the aggregator merges by shared IP as
well as by MAC: starting from an empty aggregation state, adding a record
with MAC `d1.mac` and some non-empty IP and then a record with a distinct MAC
but the same IP string folds the second into the first's entry — the state
holds a single entry, keyed and labelled by the lowercased first MAC, whose
MAC set contains both lowercased MACs. Holds for every radio map and every
IP classification. -/
theorem C9_theorem (w : List (Str × Str)) (c : Str → NxAgg.IpKind)
    (d1 d2 : NxAgg.DiscoveredDevice) (ip : Str)
    (h1 : d1.ip = some ip) (h2 : d2.ip = some ip) (hip : ip ≠ [])
    (hm1 : lowerS d1.mac ≠ []) (hne : lowerS d1.mac ≠ lowerS d2.mac) :
    alKeys (NxAgg.addDevice w c (NxAgg.addDevice w c NxAgg.emptyAgg d1) d2).entries
      = [lowerS d1.mac] ∧
    alGet (NxAgg.addDevice w c (NxAgg.addDevice w c NxAgg.emptyAgg d1) d2).entries
        (lowerS d1.mac) =
      some (NxAgg.updateEntry w c d2 (NxAgg.updateEntry w c d1
        (NxAgg.newAggregated (lowerS d1.mac)))) ∧
    (NxAgg.updateEntry w c d2 (NxAgg.updateEntry w c d1
        (NxAgg.newAggregated (lowerS d1.mac)))).primary_mac = lowerS d1.mac ∧
    (NxAgg.updateEntry w c d2 (NxAgg.updateEntry w c d1
        (NxAgg.newAggregated (lowerS d1.mac)))).mac_addresses =
      [lowerS d1.mac, lowerS d2.mac] := by
  have hprim1 : NxAgg.resolvePrimary NxAgg.emptyAgg d1 = lowerS d1.mac := by
    simp [NxAgg.resolvePrimary, NxAgg.emptyAgg, alGet, truthyS, h1]
  have hst1e : (NxAgg.addDevice w c NxAgg.emptyAgg d1).entries =
      [(lowerS d1.mac, NxAgg.updateEntry w c d1
        (NxAgg.newAggregated (lowerS d1.mac)))] := by
    simp only [NxAgg.addDevice]
    rw [hprim1]
    simp [NxAgg.emptyAgg, alGet, alSet]
  have hept : (NxAgg.addDevice w c NxAgg.emptyAgg d1).endpointToPrimary =
      alSetdefault [(lowerS d1.mac, lowerS d1.mac)] ip (lowerS d1.mac) := by
    simp only [NxAgg.addDevice]
    rw [hprim1]
    simp [NxAgg.emptyAgg, alSetdefault, alGet, truthyS, h1, hip]
  have hlook : ∀ q v,
      alGet (NxAgg.addDevice w c NxAgg.emptyAgg d1).endpointToPrimary q = some v →
      v = lowerS d1.mac := by
    intro q v hq
    rw [hept] at hq
    rcases mem_alSetdefault (alGet_mem hq) with hm | hm <;> simp at hm <;>
      tauto
  have hepip : alGet (NxAgg.addDevice w c NxAgg.emptyAgg d1).endpointToPrimary
      ip = some (lowerS d1.mac) := by
    rw [hept]
    by_cases hq : lowerS d1.mac = ip
    · simp [alSetdefault, alGet, hq]
    · simp [alSetdefault, alGet, hq]
  have hprim2 : NxAgg.resolvePrimary (NxAgg.addDevice w c NxAgg.emptyAgg d1) d2 =
      lowerS d1.mac := by
    unfold NxAgg.resolvePrimary
    rcases hs1 : alGet (NxAgg.addDevice w c NxAgg.emptyAgg d1).endpointToPrimary
        (lowerS d2.mac) with _ | v
    · simp only [hs1]
      simp [truthyS, h2, hepip, hm1, hip]
    · have hv : v = lowerS d1.mac := hlook _ _ hs1
      subst hv
      simp [hs1, truthyS, hm1]
  have hfin : (NxAgg.addDevice w c (NxAgg.addDevice w c NxAgg.emptyAgg d1) d2).entries =
      [(lowerS d1.mac, NxAgg.updateEntry w c d2 (NxAgg.updateEntry w c d1
        (NxAgg.newAggregated (lowerS d1.mac))))] := by
    conv_lhs => rw [NxAgg.addDevice]
    rw [hprim2, hst1e]
    simp [alGet, alSet]
  refine ⟨by rw [hfin]; rfl, by rw [hfin]; simp [alGet], ?_, ?_⟩
  · rw [NxAgg.updateEntry_primary_mac, NxAgg.updateEntry_primary_mac]
    rfl
  · rw [NxAgg.updateEntry_mac_addresses, NxAgg.updateEntry_mac_addresses]
    have hbase : NxAgg.setAdd (NxAgg.newAggregated (lowerS d1.mac)).mac_addresses
        (lowerS d1.mac) = [lowerS d1.mac] := by
      simp [NxAgg.setAdd, NxAgg.newAggregated]
    rw [hbase]
    simp [NxAgg.setAdd, hne.symm]

def c9d1 : NxAgg.DiscoveredDevice :=
  { mac := strOf "AA:AA:AA:AA:AA:01", interface := strOf "eth0",
    ip := some (strOf "10.0.0.7"), state := some (strOf "REACHABLE") }

def c9d2 : NxAgg.DiscoveredDevice :=
  { mac := strOf "BB:BB:BB:BB:BB:02", interface := strOf "wlan0",
    ip := some (strOf "10.0.0.7"), state := none }

/-- Witness for C9 at two concrete records sharing the IP `10.0.0.7`. -/
theorem C9_witness :
    alKeys (NxAgg.addDevice [] (fun _ => NxAgg.IpKind.v4)
        (NxAgg.addDevice [] (fun _ => NxAgg.IpKind.v4) NxAgg.emptyAgg c9d1)
        c9d2).entries = [lowerS c9d1.mac] ∧
    (NxAgg.updateEntry [] (fun _ => NxAgg.IpKind.v4) c9d2
        (NxAgg.updateEntry [] (fun _ => NxAgg.IpKind.v4) c9d1
          (NxAgg.newAggregated (lowerS c9d1.mac)))).mac_addresses =
      [lowerS c9d1.mac, lowerS c9d2.mac] := by
  have h := C9_theorem [] (fun _ => NxAgg.IpKind.v4) c9d1 c9d2 (strOf "10.0.0.7")
    rfl rfl (by decide) (by decide) (by decide)
  exact ⟨h.1, h.2.2.2⟩

/-- A previous-cycle snapshot for the C7 witness: device `AA`, online, with a
hostname. -/
def c7Prev : NxCoord.NxClient :=
  { NxCoord.defaultClient macAA exAlias [macAA] with
    online := true, hostname := some hostPrinter }

def c7RegDevices : NxRegistry.Reg :=
  [(macAA, { aliasName := exAlias, macs := [macAA, macBB],
             metadata := { hostname := none, ipv4 := none } })]

/-- Witness for C7: one stored device (`AA` under `ap1`) with a previous
snapshot and no sighting this cycle is re-emitted offline with its previous
attributes intact. -/
theorem C7_witness :
    alGet (NxCoord.carryForward exAlias c7RegDevices [(macAA, c7Prev)] [])
      macAA = some { c7Prev with online := false } := by
  have h := (C7_theorem exAlias c7RegDevices [(macAA, c7Prev)] []
      (by decide)).1 macAA
      { aliasName := exAlias, macs := [macAA, macBB],
        metadata := { hostname := none, ipv4 := none } }
      (by decide) (by decide) (by decide)
  exact h.trans (by decide)

namespace NxIdentity

theorem mem_regEntryAdd {np nm x : Str} {e : List Str} :
    x ∈ (regEntryAdd np nm e).1 ↔ (x = np ∨ x = nm ∨ x ∈ e) := by
  unfold regEntryAdd
  dsimp only
  split_ifs <;> simp <;> aesop

theorem regEntryAdd_stable {np nm : Str} {e : List Str} (h1 : np ∈ e)
    (h2 : nm ∈ e) : regEntryAdd np nm e = (e, false) := by
  unfold regEntryAdd
  simp [h1, h2]

theorem regPendingRemove_fst_not_mem {np nm : Str} {pending : List Str}
    {ch : Bool} (h : pending.Nodup) :
    nm ∉ (regPendingRemove np nm pending ch).1 ∧
    np ∉ (regPendingRemove np nm pending ch).1 ∧
    (regPendingRemove np nm pending ch).1.Nodup := by
  unfold regPendingRemove
  dsimp only
  split_ifs with h1 h2 h3 <;> refine ⟨?_, ?_, ?_⟩
  all_goals first
    | exact fun hc => not_mem_eraseFirst_self h (mem_eraseFirst hc)
    | exact not_mem_eraseFirst_self (nodup_eraseFirst h)
    | exact nodup_eraseFirst (nodup_eraseFirst h)
    | exact not_mem_eraseFirst_self h
    | exact nodup_eraseFirst h
    | exact fun hc => h1 (mem_eraseFirst hc)
    | exact h1
    | exact h2
    | exact h3
    | exact h

theorem regPendingRemove_stable {np nm : Str} {pending : List Str} {ch : Bool}
    (h1 : nm ∉ pending) (h2 : np ∉ pending) :
    regPendingRemove np nm pending ch = (pending, ch) := by
  unfold regPendingRemove
  simp [h1, h2]

theorem regCleanup_keep {np nm : Str} {e : Str × List Str}
    (h : e.1 = np ∨ nm ∉ e.2) : regCleanup np nm e = some e := by
  unfold regCleanup
  rcases h with h | h
  · rw [if_pos h]
  · by_cases h1 : e.1 = np
    · rw [if_pos h1]
    · rw [if_neg h1, if_neg h]

theorem mem_filterMap_regCleanup {np nm : Str} {l : List (Str × List Str)}
    {e : Str × List Str} (h : e ∈ l.filterMap (regCleanup np nm))
    (hne : e.1 ≠ np) : nm ∉ e.2 := by
  obtain ⟨e0, _, hf⟩ := List.mem_filterMap.mp h
  unfold regCleanup at hf
  split_ifs at hf with ha hb hc
  · obtain rfl : e0 = e := by injection hf
    exact absurd ha hne
  · obtain rfl : (e0.1, e0.2.filter (fun x => decide (x ≠ nm))) = e := by
      injection hf
    intro hc2
    simp at hc2
  · obtain rfl : e0 = e := by injection hf
    exact hb

theorem alGet_filterMap_regCleanup_np {np nm : Str}
    (l : List (Str × List Str)) :
    alGet (l.filterMap (regCleanup np nm)) np = alGet l np := by
  induction l with
  | nil => rfl
  | cons e t ih =>
    obtain ⟨k, macs⟩ := e
    by_cases hk : k = np
    · subst hk
      rw [List.filterMap_cons, @regCleanup_keep k nm (k, macs) (Or.inl rfl)]
      rw [alGet, if_pos rfl, alGet, if_pos rfl]
    · rw [List.filterMap_cons]
      rcases hf : regCleanup np nm (k, macs) with _ | e2
      · rw [alGet, if_neg hk]
        exact ih
      · have hk2 : e2.1 = k := by
          unfold regCleanup at hf
          split_ifs at hf with ha hb hc
          · exact absurd ha hk
          · obtain rfl : ((k, macs).1,
                (k, macs).2.filter (fun x => decide (x ≠ nm))) = e2 := by
              injection hf
            rfl
          · obtain rfl : (k, macs) = e2 := by injection hf
            rfl
        rw [alGet, hk2, if_neg hk, alGet, if_neg hk]
        exact ih

theorem register_devices_np {p m np nm : Str} {kd : Known}
    (hp : NxApi.normalizeMac p = some np)
    (hm : NxApi.normalizeMac m = some nm) :
    ∃ entry, alGet (registerSecondaryMac p m kd).1.devices np = some entry ∧
      np ∈ entry ∧ nm ∈ entry := by
  simp only [registerSecondaryMac, hp, hm]
  rw [alGet_filterMap_regCleanup_np, alGet_alSet_self]
  exact ⟨_, rfl, mem_regEntryAdd.mpr (Or.inl rfl),
    mem_regEntryAdd.mpr (Or.inr (Or.inl rfl))⟩

theorem register_no_nm_elsewhere {p m np nm : Str} {kd : Known}
    (hp : NxApi.normalizeMac p = some np)
    (hm : NxApi.normalizeMac m = some nm) :
    ∀ e ∈ (registerSecondaryMac p m kd).1.devices, e.1 ≠ np → nm ∉ e.2 := by
  simp only [registerSecondaryMac, hp, hm]
  intro e he hne
  exact mem_filterMap_regCleanup he hne

theorem register_pending_not_mem {p m np nm : Str} {kd : Known}
    (hp : NxApi.normalizeMac p = some np)
    (hm : NxApi.normalizeMac m = some nm) (hnodup : kd.pending.Nodup) :
    nm ∉ (registerSecondaryMac p m kd).1.pending ∧
    np ∉ (registerSecondaryMac p m kd).1.pending := by
  simp only [registerSecondaryMac, hp, hm]
  exact ⟨(regPendingRemove_fst_not_mem hnodup).1,
    (regPendingRemove_fst_not_mem hnodup).2.1⟩

theorem register_noop {p m np nm : Str} (k1 : Known)
    (hp : NxApi.normalizeMac p = some np)
    (hm : NxApi.normalizeMac m = some nm)
    (h1 : ∃ entry, alGet k1.devices np = some entry ∧ np ∈ entry ∧ nm ∈ entry)
    (h2 : ∀ e ∈ k1.devices, e.1 ≠ np → nm ∉ e.2)
    (h3 : nm ∉ k1.pending ∧ np ∉ k1.pending) :
    registerSecondaryMac p m k1 = (k1, false) := by
  obtain ⟨entry, he, hnp, hnm⟩ := h1
  simp only [registerSecondaryMac, hp, hm, he, Option.getD_some]
  rw [regEntryAdd_stable hnp hnm]
  dsimp only
  rw [alSet_alGet_self he, regPendingRemove_stable h3.1 h3.2]
  dsimp only
  have hany : k1.devices.any (fun e => e.1 ≠ np && decide (nm ∈ e.2)) = false := by
    rw [List.any_eq_false]
    intro e hemem
    by_cases hne : e.1 = np
    · simp [hne]
    · simp [hne, h2 e hemem hne]
  have hfm : k1.devices.filterMap (regCleanup np nm) = k1.devices := by
    refine filterMap_id_of ?_
    intro e hemem
    by_cases hne : e.1 = np
    · exact regCleanup_keep (Or.inl hne)
    · exact regCleanup_keep (Or.inr (h2 e hemem hne))
  rw [hany, hfm]
  simp

theorem register_selfreg_noop {p m np nm : Str} {kd : Known}
    (hp : NxApi.normalizeMac p = some np)
    (hm : NxApi.normalizeMac m = some nm) (hnodup : kd.pending.Nodup) :
    registerSecondaryMac p m ((registerSecondaryMac p m kd).1) =
      ((registerSecondaryMac p m kd).1, false) :=
  register_noop _ hp hm (register_devices_np hp hm)
    (register_no_nm_elsewhere hp hm) (register_pending_not_mem hp hm hnodup)

end NxIdentity

/-! Further generic association-list lemmas. -/

theorem mem_keys_unique {α : Type} {l : List (Str × α)} {k : Str} {v1 v2 : α}
    (hnodup : (l.map Prod.fst).Nodup) (h1 : (k, v1) ∈ l) (h2 : (k, v2) ∈ l) :
    v1 = v2 := by
  induction l with
  | nil => simp at h1
  | cons e t ih =>
    obtain ⟨k0, w⟩ := e
    rw [List.map_cons] at hnodup
    obtain ⟨hk0, ht⟩ := List.nodup_cons.mp hnodup
    rcases List.mem_cons.mp h1 with he1 | he1 <;>
      rcases List.mem_cons.mp h2 with he2 | he2
    · have hv1 : v1 = w := congrArg Prod.snd he1
      have hv2 : v2 = w := congrArg Prod.snd he2
      rw [hv1, hv2]
    · have hk : k = k0 := congrArg Prod.fst he1
      subst hk
      exact absurd (List.mem_map.mpr ⟨(k, v2), he2, rfl⟩) hk0
    · have hk : k = k0 := congrArg Prod.fst he2
      subst hk
      exact absurd (List.mem_map.mpr ⟨(k, v1), he1, rfl⟩) hk0
    · exact ih ht he1 he2

theorem mem_alGet_of_nodup {α : Type} {l : List (Str × α)} {k : Str} {v : α}
    (hnodup : (l.map Prod.fst).Nodup) (h : (k, v) ∈ l) :
    alGet l k = some v := by
  induction l with
  | nil => simp at h
  | cons e t ih =>
    obtain ⟨k0, w⟩ := e
    rw [List.map_cons] at hnodup
    obtain ⟨hk0, ht⟩ := List.nodup_cons.mp hnodup
    rcases List.mem_cons.mp h with he | he
    · have hkk : k = k0 := congrArg Prod.fst he
      have hv : v = w := congrArg Prod.snd he
      subst hkk
      subst hv
      rw [alGet, if_pos rfl]
    · by_cases hk : k0 = k
      · subst hk
        exact absurd (List.mem_map.mpr ⟨(k0, v), he, rfl⟩) hk0
      · rw [alGet, if_neg hk]
        exact ih ht he

theorem alGet_alRemove_ne {α : Type} {l : List (Str × α)} {k2 k : Str}
    (hne : k2 ≠ k) : alGet (alRemove l k2) k = alGet l k := by
  induction l with
  | nil => rfl
  | cons e t ih =>
    obtain ⟨k0, w⟩ := e
    by_cases h0 : k0 = k2
    · subst h0
      rw [alRemove, if_pos rfl, alGet, if_neg hne]
    · rw [alRemove, if_neg h0]
      by_cases hk : k0 = k
      · subst hk
        rw [alGet, if_pos rfl, alGet, if_pos rfl]
      · rw [alGet, if_neg hk, alGet, if_neg hk]
        exact ih

theorem mem_alRemove {α : Type} {l : List (Str × α)} {k2 : Str} {x : Str × α}
    (h : x ∈ alRemove l k2) : x ∈ l := by
  induction l with
  | nil => simp [alRemove] at h
  | cons e t ih =>
    rw [alRemove] at h
    split_ifs at h
    · exact List.mem_cons_of_mem _ h
    · rcases List.mem_cons.mp h with rfl | h2
      · exact List.mem_cons_self _ _
      · exact List.mem_cons_of_mem _ (ih h2)

theorem not_mem_alRemove_key {α : Type} {l : List (Str × α)} {k : Str}
    (hnodup : (l.map Prod.fst).Nodup) (v : α) : (k, v) ∉ alRemove l k := by
  induction l with
  | nil => simp [alRemove]
  | cons e t ih =>
    obtain ⟨k0, w⟩ := e
    rw [List.map_cons] at hnodup
    obtain ⟨hk0, ht⟩ := List.nodup_cons.mp hnodup
    rw [alRemove]
    split_ifs with h0
    · subst h0
      intro hc
      exact hk0 (List.mem_map.mpr ⟨(k0, v), hc, rfl⟩)
    · intro hc
      rcases List.mem_cons.mp hc with he | he
      · exact h0 (congrArg Prod.fst he).symm
      · exact ih ht he

theorem mem_foldl_setAppend {src : List Str} :
    ∀ {acc : List Str} {b : Str}, (b ∈ acc ∨ b ∈ src) →
    b ∈ src.foldl (fun acc m => if m ∈ acc then acc else acc ++ [m]) acc := by
  induction src with
  | nil =>
    intro acc b h
    rcases h with h | h
    · exact h
    · simp at h
  | cons x t ih =>
    intro acc b h
    rw [List.foldl_cons]
    have hstep : ∀ y, y ∈ acc ∨ y = x →
        y ∈ (if x ∈ acc then acc else acc ++ [x]) := by
      intro y hy
      split_ifs with hx
      · rcases hy with hy | rfl
        · exact hy
        · exact hx
      · rcases hy with hy | rfl
        · exact List.mem_append_left _ hy
        · exact List.mem_append_right _ (List.mem_singleton.mpr rfl)
    rcases h with h | h
    · exact ih (Or.inl (hstep b (Or.inl h)))
    · rcases List.mem_cons.mp h with rfl | h2
      · exact ih (Or.inl (hstep b (Or.inr rfl)))
      · exact ih (Or.inr h2)

namespace NxRegistry

/-- Per-alias uniqueness: any two records of the same alias sharing a member
MAC are the same record (the member-to-primary mapping is a function within
one alias). -/
def RegUniq (reg : Reg) : Prop :=
  ∀ a b p1 info1 p2 info2, (p1, info1) ∈ reg → (p2, info2) ∈ reg →
    info1.aliasName = a → info2.aliasName = a →
    b ∈ info1.macs → b ∈ info2.macs → p1 = p2

theorem regUniq_singleton (k : Str) (info : RegInfo) : RegUniq [(k, info)] := by
  intro a b p1 i1 p2 i2 h1 h2 _ _ _ _
  rw [List.mem_singleton] at h1 h2
  have e1 : p1 = k := congrArg Prod.fst h1
  have e2 : p2 = k := congrArg Prod.fst h2
  rw [e1, e2]

theorem getPrimary_some_spec {a b : Str} {reg : Reg} {p : Str}
    (h : getPrimaryForMac a b reg = some p) :
    ∃ info, (p, info) ∈ reg ∧ info.aliasName = a ∧ b ∈ info.macs := by
  induction reg with
  | nil => simp [getPrimaryForMac] at h
  | cons e t ih =>
    obtain ⟨k, info⟩ := e
    rw [getPrimaryForMac] at h
    split_ifs at h with hc
    · obtain rfl : k = p := by injection h
      exact ⟨info, List.mem_cons_self _ _, hc.1, hc.2⟩
    · obtain ⟨info2, hm, ha, hb⟩ := ih h
      exact ⟨info2, List.mem_cons_of_mem _ hm, ha, hb⟩

theorem getPrimary_none_spec {a b : Str} {reg : Reg}
    (h : getPrimaryForMac a b reg = none) :
    ∀ e ∈ reg, ¬(e.2.aliasName = a ∧ b ∈ e.2.macs) := by
  induction reg with
  | nil => simp
  | cons e t ih =>
    obtain ⟨k, info⟩ := e
    rw [getPrimaryForMac] at h
    split_ifs at h with hc
    intro e2 he2
    rcases List.mem_cons.mp he2 with rfl | h2
    · exact hc
    · exact ih h e2 h2

theorem getPrimary_alSet_found {a b p : Str} {l : Reg} {info0 info2 : RegInfo}
    (hget : alGet l p = some info0)
    (hno : ∀ e ∈ l, e.1 ≠ p → ¬(e.2.aliasName = a ∧ b ∈ e.2.macs))
    (ha : info2.aliasName = a) (hb : b ∈ info2.macs) :
    getPrimaryForMac a b (alSet l p info2) = some p := by
  induction l with
  | nil => simp [alGet] at hget
  | cons e t ih =>
    obtain ⟨k, w⟩ := e
    by_cases hk : k = p
    · subst hk
      rw [alSet, if_pos rfl, getPrimaryForMac, if_pos ⟨ha, hb⟩]
    · rw [alSet, if_neg hk]
      rw [alGet, if_neg hk] at hget
      rw [getPrimaryForMac, if_neg (hno (k, w) (List.mem_cons_self _ _) hk)]
      exact ih hget (fun e he hne => hno e (List.mem_cons_of_mem _ he) hne)

theorem addMac_post {a p b : Str} {reg r : Reg}
    (hnodup : (reg.map Prod.fst).Nodup) (huniq : RegUniq reg)
    (hok : addMac a p b reg = .ok r) :
    ∃ info2, alGet r p = some info2 ∧ info2.aliasName = a ∧ b ∈ info2.macs ∧
      getPrimaryForMac a b r = some p := by
  unfold addMac at hok
  rcases hg : alGet reg p with _ | info
  · rw [hg] at hok
    exact absurd hok (by simp)
  rw [hg] at hok
  dsimp only at hok
  by_cases hal : info.aliasName ≠ a
  · rw [if_pos hal] at hok
    exact absurd hok (by simp)
  rw [if_neg hal] at hok
  have hala : info.aliasName = a := not_not.mp hal
  rcases hap : getPrimaryForMac a b reg with _ | ap
  · rw [hap] at hok
    dsimp only at hok
    by_cases hbm : b ∈ info.macs
    · exact absurd ⟨hala, hbm⟩ (getPrimary_none_spec hap (p, info) (alGet_mem hg))
    · rw [if_neg hbm] at hok
      obtain rfl : alSet reg p { info with macs := info.macs ++ [b] } = r := by
        injection hok
      refine ⟨_, alGet_alSet_self reg p _, hala, ?_, ?_⟩
      · exact List.mem_append_right _ (List.mem_singleton.mpr rfl)
      · refine getPrimary_alSet_found hg ?_ hala
          (List.mem_append_right _ (List.mem_singleton.mpr rfl))
        intro e he _
        exact getPrimary_none_spec hap e he
  · rw [hap] at hok
    dsimp only at hok
    obtain ⟨infoAp, hmemAp, haAp, hbAp⟩ := getPrimary_some_spec hap
    by_cases hape : ap = p
    · subst hape
      rw [if_neg (by simp)] at hok
      dsimp only at hok
      have hinfoeq : infoAp = info :=
        mem_keys_unique hnodup hmemAp (alGet_mem hg)
      subst hinfoeq
      rw [if_pos hbAp] at hok
      obtain rfl : alSet reg ap infoAp = r := by injection hok
      rw [alSet_alGet_self hg]
      exact ⟨infoAp, hg, hala, hbAp, hap⟩
    · rw [if_pos hape] at hok
      have hgAp : alGet reg ap = some infoAp := mem_alGet_of_nodup hnodup hmemAp
      rw [hgAp] at hok
      dsimp only at hok
      have hbmerged : b ∈ infoAp.macs.foldl
          (fun acc m => if m ∈ acc then acc else acc ++ [m]) info.macs :=
        mem_foldl_setAppend (Or.inr hbAp)
      rw [if_pos hbmerged] at hok
      obtain rfl : alSet (alRemove reg ap) p
          { info with
            macs := infoAp.macs.foldl
              (fun acc m => if m ∈ acc then acc else acc ++ [m]) info.macs,
            metadata := updateMetadata info.metadata
              infoAp.metadata.hostname infoAp.metadata.ipv4 } = r := by
        injection hok
      have hget2 : alGet (alRemove reg ap) p = some info := by
        rw [alGet_alRemove_ne hape]
        exact hg
      refine ⟨_, alGet_alSet_self (alRemove reg ap) p _, hala, hbmerged, ?_⟩
      refine getPrimary_alSet_found hget2 ?_ hala hbmerged
      intro e he _ hpred
      have hmem2 : e ∈ reg := mem_alRemove he
      have heap : e.1 = ap :=
        huniq a b e.1 e.2 ap infoAp hmem2 hmemAp hpred.1 haAp hpred.2 hbAp
      rw [show e = (e.1, e.2) from rfl, heap] at he
      exact not_mem_alRemove_key hnodup e.2 he

/-- Idempotence of `add_mac`: on a well-formed registry (unique keys,
per-alias uniqueness) a second identical call returns the same registry
without raising. -/
theorem addMac_idem {a p b : Str} {reg r : Reg}
    (hnodup : (reg.map Prod.fst).Nodup) (huniq : RegUniq reg)
    (hok : addMac a p b reg = .ok r) : addMac a p b r = .ok r := by
  obtain ⟨info2, hget, ha, hb, hprim⟩ := addMac_post hnodup huniq hok
  unfold addMac
  rw [hget]
  dsimp only
  rw [if_neg (not_not_intro ha), hprim]
  dsimp only
  rw [if_neg (show ¬p ≠ p by simp)]
  dsimp only
  rw [if_pos hb, alSet_alGet_self hget]

end NxRegistry

/-- C6: merging a candidate MAC into a primary identity is idempotent. For
the consolidation store, a second `_register_secondary_mac(p, m)` with the
same arguments leaves the store exactly as after the first call and reports
`changed=False` (the pending list, being persisted deduplicated, has no
duplicates). For the registry, a second `add_mac(alias, A, B)` on a
well-formed registry (dict keys unique, per-alias member uniqueness) returns
the same registry with no error. -/
theorem C6_theorem :
    (∀ (p m : Str) (kd : NxIdentity.Known), kd.pending.Nodup →
      NxIdentity.registerSecondaryMac p m
          ((NxIdentity.registerSecondaryMac p m kd).1) =
        ((NxIdentity.registerSecondaryMac p m kd).1, false)) ∧
    (∀ (a p b : Str) (reg r : NxRegistry.Reg), (reg.map Prod.fst).Nodup →
      NxRegistry.RegUniq reg → NxRegistry.addMac a p b reg = .ok r →
      NxRegistry.addMac a p b r = .ok r) := by
  constructor
  · intro p m kd hnodup
    rcases hp : NxApi.normalizeMac p with _ | np
    · simp [NxIdentity.registerSecondaryMac, hp]
    rcases hm : NxApi.normalizeMac m with _ | nm
    · simp [NxIdentity.registerSecondaryMac, hp, hm]
    exact NxIdentity.register_selfreg_noop hp hm hnodup
  · intro a p b reg r hnodup huniq hok
    exact NxRegistry.addMac_idem hnodup huniq hok

/-- The registry holding only `AA` under `ap1`, for the C6 witness. -/
def c6Reg : NxRegistry.Reg :=
  [(macAA, { aliasName := exAlias, macs := [macAA],
             metadata := { hostname := none, ipv4 := none } })]

def c6RegAfter : NxRegistry.Reg :=
  match NxRegistry.addMac exAlias macAA macBB c6Reg with
  | .ok r => r
  | .error _ => []

/-- Witness for C6 at concrete inputs: a repeated self-association on the
empty consolidation store and a repeated `add_mac` on a one-record
registry. -/
theorem C6_witness :
    NxIdentity.registerSecondaryMac macAA macBB
        ((NxIdentity.registerSecondaryMac macAA macBB
          { devices := [], pending := [] }).1) =
      ((NxIdentity.registerSecondaryMac macAA macBB
          { devices := [], pending := [] }).1, false) ∧
    NxRegistry.addMac exAlias macAA macBB c6RegAfter = .ok c6RegAfter :=
  ⟨C6_theorem.1 macAA macBB { devices := [], pending := [] } (by decide),
   C6_theorem.2 exAlias macAA macBB c6Reg c6RegAfter (by decide)
     (NxRegistry.regUniq_singleton macAA _) rfl⟩

/-! Lemmas about `consolidate_devices`: behaviour of one loop iteration in
bootstrap and non-bootstrap mode, and the fold invariants for C4. -/

namespace NxIdentity

theorem firstOwner_spec {nm p : Str} {l : List (Str × List Str)}
    (h : findPrimaryMac.firstOwner nm l = some p) :
    ∃ macs, (p, macs) ∈ l ∧ nm ∈ macs := by
  induction l with
  | nil => simp [findPrimaryMac.firstOwner] at h
  | cons e t ih =>
    obtain ⟨k, macs⟩ := e
    rw [findPrimaryMac.firstOwner] at h
    split_ifs at h with hmem
    · obtain rfl : k = p := by injection h
      exact ⟨macs, List.mem_cons_self _ _, hmem⟩
    · obtain ⟨ms, hm1, hm2⟩ := ih h
      exact ⟨ms, List.mem_cons_of_mem _ hm1, hm2⟩

theorem findPrimaryMac_some_key {m pm : Str} {kd : Known}
    (h : findPrimaryMac (some m) kd = some pm) : pm ∈ alKeys kd.devices := by
  unfold findPrimaryMac at h
  rcases hn : NxApi.normalizeMacOpt (some m) with _ | nm
  · rw [hn] at h
    exact absurd h (by simp)
  · rw [hn] at h
    dsimp only at h
    split_ifs at h with hmem
    · obtain rfl : nm = pm := by injection h
      exact hmem
    · obtain ⟨ms, hm1, _⟩ := firstOwner_spec h
      exact List.mem_map.mpr ⟨(pm, ms), hm1, rfl⟩

theorem findPrimaryMac_none_key {m : Str} {kd : Known}
    (hm : NxApi.normalizeMac m = some m)
    (h : findPrimaryMac (some m) kd = none) : m ∉ alKeys kd.devices := by
  unfold findPrimaryMac at h
  have hn : NxApi.normalizeMacOpt (some m) = some m := hm
  rw [hn] at h
  dsimp only at h
  split_ifs at h with hmem
  exact hmem

theorem findPrimaryMac_devices_eq {x : Option Str} {k1 k2 : Known}
    (h : k1.devices = k2.devices) :
    findPrimaryMac x k1 = findPrimaryMac x k2 := by
  unfold findPrimaryMac
  rw [h]

/-- In a store whose records are all self-records, a successful resolution of
`nm` means `nm` itself is a stored primary with member set `[nm]`. -/
theorem selfstore_found {nm pm : Str} {kd : Known}
    (hself : ∀ e ∈ kd.devices, e.2 = [e.1])
    (hm : NxApi.normalizeMac nm = some nm)
    (h : findPrimaryMac (some nm) kd = some pm) :
    alGet kd.devices nm = some [nm] := by
  unfold findPrimaryMac at h
  have hn : NxApi.normalizeMacOpt (some nm) = some nm := hm
  rw [hn] at h
  dsimp only at h
  split_ifs at h with hmem
  · rcases hv : alGet kd.devices nm with _ | v
    · exact absurd hmem ((alGet_eq_none_iff _ _).mp hv)
    · have hv2 := hself _ (alGet_mem hv)
      dsimp only at hv2
      rw [hv2]
  · obtain ⟨ms, hm1, hm2⟩ := firstOwner_spec h
    have hms := hself _ hm1
    dsimp only at hms
    rw [hms] at hm2
    simp only [List.mem_singleton] at hm2
    subst hm2
    exact absurd (List.mem_map.mpr ⟨_, hm1, rfl⟩) hmem

/-- Self-registering a fresh canonical MAC appends the self-record `(m, [m])`
and leaves an empty pending list empty. -/
theorem register_self_fresh {m : Str} {kd : Known}
    (hm : NxApi.normalizeMac m = some m) (hget : alGet kd.devices m = none)
    (hself : ∀ e ∈ kd.devices, e.2 = [e.1]) (hp : kd.pending = []) :
    (registerSecondaryMac m m kd).1 =
      { devices := kd.devices ++ [(m, [m])], pending := [] } := by
  have haux : alGet (kd.devices ++ [(m, [m])]) m = some [m] := by
    rw [alGet_append_of_none hget]
    simp [alGet]
  simp only [registerSecondaryMac, hm, hget, haux, Option.getD_some]
  rw [regEntryAdd_stable (by simp) (by simp)]
  dsimp only
  rw [alSet_alGet_self haux, hp, regPendingRemove_stable (by simp) (by simp)]
  dsimp only
  have hfm : (kd.devices ++ [(m, [m])]).filterMap (regCleanup m m) =
      kd.devices ++ [(m, [m])] := by
    refine filterMap_id_of ?_
    intro e hemem
    by_cases hne : e.1 = m
    · exact regCleanup_keep (Or.inl hne)
    · rcases List.mem_append.mp hemem with h1 | h1
      · refine regCleanup_keep (Or.inr ?_)
        rw [hself e h1]
        simp only [List.mem_singleton]
        exact fun h => hne h.symm
      · obtain rfl : e = (m, [m]) := by simpa using h1
        exact absurd rfl hne
  rw [hfm]

/-- The known-devices component produced by one bootstrap-mode iteration. -/
theorem consolidateStep_kd_true (st : List (Str × DevPayload) × Known × Bool)
    (item : Str × DevPayload) :
    (consolidateStep true st item).2.1 =
      match NxApi.normalizeMac item.1 with
      | none => st.2.1
      | some nm =>
        match findPrimaryMac (some nm) st.2.1 with
        | some _ => st.2.1
        | none => (registerSecondaryMac nm nm st.2.1).1 := by
  unfold consolidateStep
  rcases NxApi.normalizeMac item.1 with _ | nm
  · rfl
  dsimp only
  rcases hfp : findPrimaryMac (some nm) st.2.1 with _ | pm
  · rw [if_pos rfl]
    dsimp only
    rcases alGet st.1 (lowerS nm) with _ | ex <;> rfl
  · dsimp only
    rcases alGet st.1 (lowerS pm) with _ | ex <;> rfl

/-- The known-devices component produced by one non-bootstrap iteration. -/
theorem consolidateStep_kd_false (st : List (Str × DevPayload) × Known × Bool)
    (item : Str × DevPayload) :
    (consolidateStep false st item).2.1 =
      match NxApi.normalizeMac item.1 with
      | none => st.2.1
      | some nm =>
        match findPrimaryMac (some nm) st.2.1 with
        | some _ => st.2.1
        | none =>
          if nm ∉ st.2.1.pending then
            { st.2.1 with pending := st.2.1.pending ++ [nm] }
          else st.2.1 := by
  unfold consolidateStep
  rcases NxApi.normalizeMac item.1 with _ | nm
  · rfl
  dsimp only
  rcases hfp : findPrimaryMac (some nm) st.2.1 with _ | pm
  · rw [if_neg Bool.false_ne_true]
    dsimp only
    split_ifs <;> rfl
  · dsimp only
    rcases alGet st.1 (lowerS pm) with _ | ex <;> rfl

theorem consolidateStep_false_devices
    (st : List (Str × DevPayload) × Known × Bool) (item : Str × DevPayload) :
    (consolidateStep false st item).2.1.devices = st.2.1.devices := by
  rw [consolidateStep_kd_false]
  rcases NxApi.normalizeMac item.1 with _ | nm
  · rfl
  dsimp only
  rcases findPrimaryMac (some nm) st.2.1 with _ | pm
  · dsimp only
    split_ifs <;> rfl
  · rfl

theorem consolidateStep_false_pending
    (st : List (Str × DevPayload) × Known × Bool) (item : Str × DevPayload)
    {x : Str} (hx : x ∈ st.2.1.pending) :
    x ∈ (consolidateStep false st item).2.1.pending := by
  rw [consolidateStep_kd_false]
  rcases NxApi.normalizeMac item.1 with _ | nm
  · exact hx
  dsimp only
  rcases findPrimaryMac (some nm) st.2.1 with _ | pm
  · dsimp only
    split_ifs
    · exact hx
    · dsimp only
      exact List.mem_append_left _ hx
  · exact hx

theorem consolidateStep_false_hit
    (st : List (Str × DevPayload) × Known × Bool) (item : Str × DevPayload)
    {m : Str} (hm : NxApi.normalizeMac item.1 = some m)
    (hfp : findPrimaryMac (some m) st.2.1 = none) :
    m ∈ (consolidateStep false st item).2.1.pending := by
  rw [consolidateStep_kd_false, hm]
  dsimp only
  rw [hfp]
  dsimp only
  split_ifs with h
  · exact h
  · dsimp only
    exact List.mem_append_right _ (by simp)

theorem consolidateStep_false_keys
    (st : List (Str × DevPayload) × Known × Bool) (item : Str × DevPayload)
    {k : Str} (hk : k ∈ alKeys (consolidateStep false st item).1) :
    k ∈ alKeys st.1 ∨ ∃ p ∈ alKeys st.2.1.devices, k = lowerS p := by
  unfold consolidateStep at hk
  rcases hnm : NxApi.normalizeMac item.1 with _ | nm
  · rw [hnm] at hk
    exact Or.inl hk
  rw [hnm] at hk
  dsimp only at hk
  rcases hfp : findPrimaryMac (some nm) st.2.1 with _ | pm
  · rw [hfp, if_neg Bool.false_ne_true] at hk
    dsimp only at hk
    split_ifs at hk <;> exact Or.inl hk
  · rw [hfp] at hk
    dsimp only at hk
    rcases halg : alGet st.1 (lowerS pm) with _ | ex
    · rw [halg] at hk
      dsimp only at hk
      rw [alKeys_append] at hk
      rcases List.mem_append.mp hk with h1 | h1
      · exact Or.inl h1
      · refine Or.inr ⟨pm, findPrimaryMac_some_key hfp, ?_⟩
        simpa [alKeys] using h1
    · rw [halg] at hk
      dsimp only at hk
      have hmem : lowerS pm ∈ alKeys st.1 :=
        List.mem_map.mpr ⟨_, alGet_mem halg, rfl⟩
      rw [alKeys_alSet_of_mem _ _ _ hmem] at hk
      exact Or.inl hk

/-- One bootstrap-mode iteration preserves the all-self-records shape, keeps
the pending list empty, preserves existing self-records, and installs a
self-record for the iteration's own MAC. -/
theorem consolidateStep_true_inv (st : List (Str × DevPayload) × Known × Bool)
    (item : Str × DevPayload)
    (hself : ∀ e ∈ st.2.1.devices, e.2 = [e.1]) (hp : st.2.1.pending = []) :
    (∀ e ∈ (consolidateStep true st item).2.1.devices, e.2 = [e.1]) ∧
    (consolidateStep true st item).2.1.pending = [] ∧
    (∀ k, alGet st.2.1.devices k = some [k] →
      alGet (consolidateStep true st item).2.1.devices k = some [k]) ∧
    (∀ m, NxApi.normalizeMac item.1 = some m →
      alGet (consolidateStep true st item).2.1.devices m = some [m]) := by
  rw [consolidateStep_kd_true]
  rcases hnm : NxApi.normalizeMac item.1 with _ | nm
  · refine ⟨hself, hp, fun k hk => hk, ?_⟩
    intro m hm
    exact absurd hm (by simp)
  dsimp only
  rcases hfp : findPrimaryMac (some nm) st.2.1 with _ | pm
  · dsimp only
    have hcan := NxApi.normalizeMac_idem hnm
    have hget : alGet st.2.1.devices nm = none :=
      (alGet_eq_none_iff _ _).mpr (findPrimaryMac_none_key hcan hfp)
    rw [register_self_fresh hcan hget hself hp]
    refine ⟨?_, rfl, ?_, ?_⟩
    · intro e he
      rcases List.mem_append.mp he with h1 | h1
      · exact hself e h1
      · obtain rfl : e = (nm, [nm]) := by simpa using h1
        rfl
    · intro k hk
      exact alGet_append_of_some hk _
    · intro m hm
      obtain rfl : nm = m := by injection hm
      rw [alGet_append_of_none hget]
      simp [alGet]
  · dsimp only
    have hcan := NxApi.normalizeMac_idem hnm
    refine ⟨hself, hp, fun k hk => hk, ?_⟩
    intro m hm
    obtain rfl : nm = m := by injection hm
    exact selfstore_found hself hcan hfp

/-- Fold invariant for a bootstrap-mode consolidation cycle. -/
theorem consolidateFold_true (l : List (Str × DevPayload)) :
    ∀ st : List (Str × DevPayload) × Known × Bool,
      (∀ e ∈ st.2.1.devices, e.2 = [e.1]) → st.2.1.pending = [] →
      (∀ e ∈ (l.foldl (consolidateStep true) st).2.1.devices, e.2 = [e.1]) ∧
      (l.foldl (consolidateStep true) st).2.1.pending = [] ∧
      (∀ k, alGet st.2.1.devices k = some [k] →
        alGet (l.foldl (consolidateStep true) st).2.1.devices k = some [k]) ∧
      (∀ item ∈ l, ∀ m, NxApi.normalizeMac item.1 = some m →
        alGet (l.foldl (consolidateStep true) st).2.1.devices m = some [m]) := by
  induction l with
  | nil =>
    intro st hself hp
    exact ⟨hself, hp, fun k hk => hk, by intro item h; simp at h⟩
  | cons hd t ih =>
    intro st hself hp
    simp only [List.foldl_cons]
    obtain ⟨s1, s2, s3, s4⟩ := consolidateStep_true_inv st hd hself hp
    obtain ⟨i1, i2, i3, i4⟩ := ih (consolidateStep true st hd) s1 s2
    refine ⟨i1, i2, fun k hk => i3 k (s3 k hk), ?_⟩
    intro item hmem m hm
    rcases List.mem_cons.mp hmem with rfl | h2
    · exact i3 m (s4 m hm)
    · exact i4 item h2 m hm

/-- Fold invariant for a non-bootstrap consolidation cycle: the devices map is
untouched, the pending list only grows, and every output key is the lowercase
of a stored primary key. -/
theorem consolidateFold_false (l : List (Str × DevPayload)) :
    ∀ st : List (Str × DevPayload) × Known × Bool,
      (l.foldl (consolidateStep false) st).2.1.devices = st.2.1.devices ∧
      (∀ x ∈ st.2.1.pending,
        x ∈ (l.foldl (consolidateStep false) st).2.1.pending) ∧
      (∀ k ∈ alKeys (l.foldl (consolidateStep false) st).1,
        k ∈ alKeys st.1 ∨ ∃ p ∈ alKeys st.2.1.devices, k = lowerS p) := by
  induction l with
  | nil => exact fun st => ⟨rfl, fun x hx => hx, fun k hk => Or.inl hk⟩
  | cons hd t ih =>
    intro st
    simp only [List.foldl_cons]
    obtain ⟨ihd, ihp, ihk⟩ := ih (consolidateStep false st hd)
    refine ⟨?_, ?_, ?_⟩
    · rw [ihd, consolidateStep_false_devices]
    · intro x hx
      exact ihp x (consolidateStep_false_pending st hd hx)
    · intro k hk
      rcases ihk k hk with h1 | ⟨p, hp1, hp2⟩
      · exact consolidateStep_false_keys st hd h1
      · rw [consolidateStep_false_devices] at hp1
        exact Or.inr ⟨p, hp1, hp2⟩

/-- In a non-bootstrap cycle, an unresolvable sighted MAC ends up in the
pending list of the final store. -/
theorem consolidateFold_false_hit (l : List (Str × DevPayload)) :
    ∀ (st : List (Str × DevPayload) × Known × Bool) (item : Str × DevPayload),
      item ∈ l → ∀ m, NxApi.normalizeMac item.1 = some m →
      findPrimaryMac (some m) st.2.1 = none →
      m ∈ (l.foldl (consolidateStep false) st).2.1.pending := by
  induction l with
  | nil =>
    intro st item h
    simp at h
  | cons hd t ih =>
    intro st item hmem m hm hfp
    simp only [List.foldl_cons]
    rcases List.mem_cons.mp hmem with rfl | h2
    · exact (consolidateFold_false t (consolidateStep false st item)).2.1 m
        (consolidateStep_false_hit st item hm hfp)
    · exact ih (consolidateStep false st hd) item h2 m hm
        ((findPrimaryMac_devices_eq (consolidateStep_false_devices st hd)).trans hfp)

end NxIdentity

/-- C4: in a consolidation cycle starting from an empty store (no devices, no
pending MACs) every sighted MAC that normalizes self-registers as its own
primary identity with member set `[mac]`; once the store is non-empty the
devices mapping is left untouched, and a sighted MAC that cannot be resolved
to an existing primary is recorded in the pending list and its device is
excluded from the consolidated output (given that stored primary keys are
canonical, as `_load_known_devices` normalizes them). -/
theorem C4_theorem :
    (∀ (ds : List (Str × NxIdentity.DevPayload)) (kd : NxIdentity.Known),
      kd.devices = [] → kd.pending = [] →
      ∀ item ∈ ds, ∀ m, NxApi.normalizeMac item.1 = some m →
        alGet (NxIdentity.consolidateDevices ds kd).2.1.devices m = some [m]) ∧
    (∀ (ds : List (Str × NxIdentity.DevPayload)) (kd : NxIdentity.Known),
      ¬(kd.devices = [] ∧ kd.pending = []) →
      (∀ e ∈ kd.devices, NxApi.normalizeMac e.1 = some e.1) →
      (NxIdentity.consolidateDevices ds kd).2.1.devices = kd.devices ∧
      ∀ item ∈ ds, ∀ m, NxApi.normalizeMac item.1 = some m →
        NxIdentity.findPrimaryMac (some m) kd = none →
        m ∈ (NxIdentity.consolidateDevices ds kd).2.1.pending ∧
        lowerS m ∉ alKeys (NxIdentity.consolidateDevices ds kd).1) := by
  constructor
  · intro ds kd h1 h2 item hitem m hm
    have hrw : NxIdentity.consolidateDevices ds kd =
        ds.foldl (NxIdentity.consolidateStep true) ([], kd, false) := by
      unfold NxIdentity.consolidateDevices
      rw [h1, h2]
      simp
    rw [hrw]
    exact (NxIdentity.consolidateFold_true ds ([], kd, false)
      (by intro e he; dsimp only at he; rw [h1] at he; simp at he)
      h2).2.2.2 item hitem m hm
  · intro ds kd hne hcanon
    have hrw : NxIdentity.consolidateDevices ds kd =
        ds.foldl (NxIdentity.consolidateStep false) ([], kd, false) := by
      unfold NxIdentity.consolidateDevices
      rcases not_and_or.mp hne with h | h <;> simp [h]
    rw [hrw]
    obtain ⟨fd, fp, fk⟩ := NxIdentity.consolidateFold_false ds ([], kd, false)
    refine ⟨fd, ?_⟩
    intro item hitem m hm hfp
    refine ⟨NxIdentity.consolidateFold_false_hit ds ([], kd, false)
      item hitem m hm hfp, ?_⟩
    intro hk
    rcases fk (lowerS m) hk with h1 | ⟨p, hp1, hp2⟩
    · simp [alKeys] at h1
    · obtain ⟨e, he, rfl⟩ := List.mem_map.mp hp1
      have hpcan : NxApi.IsCanonMac e.1 := NxApi.normalizeMac_canon (hcanon e he)
      have hmcan : NxApi.IsCanonMac m := NxApi.normalizeMac_canon hm
      have heq : m = e.1 := NxApi.canon_lower_inj hmcan hpcan hp2
      have hnk := NxIdentity.findPrimaryMac_none_key (NxApi.normalizeMac_idem hm) hfp
      exact hnk (by rw [heq]; exact List.mem_map.mpr ⟨e, he, rfl⟩)

/-- A minimal device payload for the C4 witness. -/
def c4Pay : NxIdentity.DevPayload :=
  { primary_mac := [], interfaces := [], radios := [], ipv4_addresses := [],
    ipv6_addresses := [], state := none, host := none, name := none,
    mac_addresses := [], connections := [] }

/-- Witness for C4 at concrete inputs: the MAC `AA` sighted against an empty
store self-registers; sighted against a store that already has a pending MAC
it lands in pending and is excluded from the output. -/
theorem C4_witness :
    alGet (NxIdentity.consolidateDevices [(macAA, c4Pay)]
        { devices := [], pending := [] }).2.1.devices macAA = some [macAA] ∧
    (macAA ∈ (NxIdentity.consolidateDevices [(macAA, c4Pay)]
        { devices := [], pending := [macBB] }).2.1.pending ∧
      lowerS macAA ∉ alKeys (NxIdentity.consolidateDevices [(macAA, c4Pay)]
        { devices := [], pending := [macBB] }).1) :=
  ⟨C4_theorem.1 [(macAA, c4Pay)] { devices := [], pending := [] } rfl rfl
      (macAA, c4Pay) (by simp) macAA (by decide),
   (C4_theorem.2 [(macAA, c4Pay)] { devices := [], pending := [macBB] }
      (by decide) (by intro e he; simp at he)).2
      (macAA, c4Pay) (by simp) macAA (by decide) (by decide)⟩

/-- Membership in `alSet`: every entry of the updated list is an original
entry or the newly written pair. -/
theorem mem_alSet {α : Type} {l : List (Str × α)} {k : Str} {v : α}
    {x : Str × α} (h : x ∈ alSet l k v) : x ∈ l ∨ x = (k, v) := by
  induction l with
  | nil =>
    rw [alSet] at h
    exact Or.inr (by simpa using h)
  | cons e t ih =>
    obtain ⟨k0, v0⟩ := e
    rw [alSet] at h
    split_ifs at h with hk
    · rcases List.mem_cons.mp h with rfl | h2
      · exact Or.inr rfl
      · exact Or.inl (List.mem_cons_of_mem _ h2)
    · rcases List.mem_cons.mp h with rfl | h2
      · exact Or.inl (List.mem_cons_self _ _)
      · rcases ih h2 with h3 | h3
        · exact Or.inl (List.mem_cons_of_mem _ h3)
        · exact Or.inr h3

namespace NxIdentity

/-- The member-to-primary mapping of the identity store is a partial function:
any two records sharing a member MAC have the same primary key. -/
def MemFun (l : List (Str × List Str)) : Prop :=
  ∀ p1 l1 p2 l2, (p1, l1) ∈ l → (p2, l2) ∈ l →
    ∀ x, x ∈ l1 → x ∈ l2 → p1 = p2

theorem memFun_singleton (k : Str) (v : List Str) : MemFun [(k, v)] := by
  intro p1 l1 p2 l2 h1 h2 x _ _
  simp only [List.mem_singleton] at h1 h2
  have e1 : p1 = k := congrArg Prod.fst h1
  have e2 : p2 = k := congrArg Prod.fst h2
  rw [e1, e2]

theorem regCleanup_fst {np nm : Str} {e e2 : Str × List Str}
    (h : regCleanup np nm e = some e2) : e2.1 = e.1 := by
  unfold regCleanup at h
  split_ifs at h with ha hb hc
  · obtain rfl : e = e2 := by injection h
    rfl
  · obtain rfl : (e.1, e.2.filter (fun x => decide (x ≠ nm))) = e2 := by
      injection h
    rfl
  · obtain rfl : e = e2 := by injection h
    rfl

theorem regCleanup_subset {np nm : Str} {e e2 : Str × List Str}
    (h : regCleanup np nm e = some e2) : ∀ x ∈ e2.2, x ∈ e.2 := by
  unfold regCleanup at h
  split_ifs at h with ha hb hc
  · obtain rfl : e = e2 := by injection h
    exact fun x hx => hx
  · obtain rfl : (e.1, e.2.filter (fun x => decide (x ≠ nm))) = e2 := by
      injection h
    exact fun x hx => (List.mem_filter.mp hx).1
  · obtain rfl : e = e2 := by injection h
    exact fun x hx => hx

/-- The cleanup pass keeps keys in order, so its key list is a sublist of the
input's key list. -/
theorem filterMap_regCleanup_keys_sublist (np nm : Str)
    (l : List (Str × List Str)) :
    List.Sublist ((l.filterMap (regCleanup np nm)).map Prod.fst)
      (l.map Prod.fst) := by
  induction l with
  | nil => simp
  | cons e t ih =>
    rw [List.filterMap_cons]
    rcases hf : regCleanup np nm e with _ | e2
    · simp only [List.map_cons]
      exact ih.cons _
    · simp only [List.map_cons]
      rw [regCleanup_fst hf]
      exact ih.cons₂ _

/-- Core preservation argument: updating the primary's record and running the
cleanup pass keeps the keys unique and the member-to-primary mapping a
function, provided the primary's designated record exists, its members occur
nowhere else, and the primary MAC itself is not a member of a foreign
record. -/
theorem register_core {np nm : Str} {D1 : List (Str × List Str)}
    {entry0 : List Str}
    (hnodup : (alKeys D1).Nodup)
    (hget : alGet D1 np = some entry0)
    (hfun : MemFun D1)
    (hsafe : ∀ x ∈ entry0, ∀ e ∈ D1, x ∈ e.2 → e.1 = np)
    (hprim : ∀ e ∈ D1, e.1 ≠ np → np ∉ e.2) :
    (alKeys ((alSet D1 np (regEntryAdd np nm entry0).1).filterMap
        (regCleanup np nm))).Nodup ∧
    MemFun ((alSet D1 np (regEntryAdd np nm entry0).1).filterMap
        (regCleanup np nm)) := by
  set newE := (regEntryAdd np nm entry0).1 with hnewE
  set R := (alSet D1 np newE).filterMap (regCleanup np nm) with hR
  have hkeymem : np ∈ alKeys D1 := by
    by_contra hc
    rw [(alGet_eq_none_iff D1 np).mpr hc] at hget
    exact absurd hget (by simp)
  have hkeq : alKeys (alSet D1 np newE) = alKeys D1 :=
    alKeys_alSet_of_mem _ _ _ hkeymem
  have hknodup : (alKeys R).Nodup := by
    have hsub : List.Sublist (alKeys R) (alKeys D1) := by
      rw [← hkeq]
      exact filterMap_regCleanup_keys_sublist np nm (alSet D1 np newE)
    exact hnodup.sublist hsub
  have hnpR : alGet R np = some newE := by
    rw [hR, alGet_filterMap_regCleanup_np, alGet_alSet_self]
  have hdecomp : ∀ q lq, (q, lq) ∈ R → q ≠ np →
      ∃ e ∈ D1, e.1 = q ∧ (∀ x ∈ lq, x ∈ e.2) ∧ nm ∉ lq := by
    intro q lq hmem hne
    obtain ⟨e0, he0, hf⟩ := List.mem_filterMap.mp (hR ▸ hmem)
    have hfst : q = e0.1 := regCleanup_fst hf
    have he0d : e0 ∈ D1 := by
      rcases mem_alSet he0 with h1 | h1
      · exact h1
      · exact absurd (hfst.trans (congrArg Prod.fst h1)) hne
    exact ⟨e0, he0d, hfst.symm, regCleanup_subset hf,
      mem_filterMap_regCleanup (hR ▸ hmem) hne⟩
  have hnponly : ∀ lq, (np, lq) ∈ R → lq = newE := by
    intro lq hmem
    have h2 : (some lq : Option (List Str)) = some newE :=
      (mem_alGet_of_nodup hknodup hmem).symm.trans hnpR
    exact Option.some.inj h2
  refine ⟨hknodup, ?_⟩
  intro p1 l1 p2 l2 h1 h2 x hx1 hx2
  by_cases hp1 : p1 = np <;> by_cases hp2 : p2 = np
  · rw [hp1, hp2]
  · exfalso
    subst hp1
    have hl1 : l1 = newE := hnponly l1 h1
    obtain ⟨e2, he2, hk2, hsub2, hnm2⟩ := hdecomp p2 l2 h2 hp2
    rw [hl1, hnewE] at hx1
    rcases mem_regEntryAdd.mp hx1 with rfl | rfl | hx0
    · exact hprim e2 he2 (by rw [hk2]; exact hp2) (hsub2 x hx2)
    · exact hnm2 hx2
    · exact absurd (hsafe x hx0 e2 he2 (hsub2 x hx2)) (by rw [hk2]; exact hp2)
  · exfalso
    subst hp2
    have hl2 : l2 = newE := hnponly l2 h2
    obtain ⟨e1, he1, hk1, hsub1, hnm1⟩ := hdecomp p1 l1 h1 hp1
    rw [hl2, hnewE] at hx2
    rcases mem_regEntryAdd.mp hx2 with rfl | rfl | hx0
    · exact hprim e1 he1 (by rw [hk1]; exact hp1) (hsub1 x hx1)
    · exact hnm1 hx1
    · exact absurd (hsafe x hx0 e1 he1 (hsub1 x hx1)) (by rw [hk1]; exact hp1)
  · obtain ⟨e1, he1, hk1, hsub1, _⟩ := hdecomp p1 l1 h1 hp1
    obtain ⟨e2, he2, hk2, hsub2, _⟩ := hdecomp p2 l2 h2 hp2
    rw [← hk1, ← hk2]
    exact hfun e1.1 e1.2 e2.1 e2.2 he1 he2 x (hsub1 x hx1) (hsub2 x hx2)

end NxIdentity

namespace NxIdentity

/-- `_register_secondary_mac` preserves key uniqueness and the
member-to-primary function whenever the normalized primary MAC is not already
a member of a foreign record (it is a stored key, or entirely fresh). -/
theorem registerSecondaryMac_preserves {p m np nm : Str} {kd : Known}
    (hp : NxApi.normalizeMac p = some np) (hm : NxApi.normalizeMac m = some nm)
    (hnodup : (alKeys kd.devices).Nodup) (hfun : MemFun kd.devices)
    (hprim : ∀ e ∈ kd.devices, e.1 ≠ np → np ∉ e.2) :
    (alKeys (registerSecondaryMac p m kd).1.devices).Nodup ∧
    MemFun (registerSecondaryMac p m kd).1.devices := by
  simp only [registerSecondaryMac, hp, hm]
  rcases hget : alGet kd.devices np with _ | entry0
  · dsimp only
    have hnp : np ∉ alKeys kd.devices := (alGet_eq_none_iff _ _).mp hget
    have hget1 : alGet (kd.devices ++ [(np, [np])]) np = some [np] := by
      rw [alGet_append_of_none hget]
      simp [alGet]
    rw [hget1, Option.getD_some]
    have hnodup1 : (alKeys (kd.devices ++ [(np, [np])])).Nodup := by
      rw [alKeys_append, List.nodup_append]
      refine ⟨hnodup, by simp [alKeys], ?_⟩
      intro a ha hb
      have hb2 : a = np := by simpa [alKeys] using hb
      rw [hb2] at ha
      exact hnp ha
    have hfun1 : MemFun (kd.devices ++ [(np, [np])]) := by
      intro p1 l1 p2 l2 h1 h2 x hx1 hx2
      rcases List.mem_append.mp h1 with h1a | h1a <;>
        rcases List.mem_append.mp h2 with h2a | h2a
      · exact hfun p1 l1 p2 l2 h1a h2a x hx1 hx2
      · simp only [List.mem_singleton] at h2a
        have hb : p2 = np := congrArg Prod.fst h2a
        have hc : l2 = [np] := congrArg Prod.snd h2a
        rw [hb]
        rw [hc] at hx2
        simp only [List.mem_singleton] at hx2
        rw [hx2] at hx1
        by_contra hne
        exact hprim (p1, l1) h1a hne hx1
      · simp only [List.mem_singleton] at h1a
        have hb : p1 = np := congrArg Prod.fst h1a
        have hc : l1 = [np] := congrArg Prod.snd h1a
        rw [hb]
        rw [hc] at hx1
        simp only [List.mem_singleton] at hx1
        rw [hx1] at hx2
        by_contra hne
        exact hprim (p2, l2) h2a (fun hh => hne hh.symm) hx2
      · simp only [List.mem_singleton] at h1a h2a
        have hb1 : p1 = np := congrArg Prod.fst h1a
        have hb2 : p2 = np := congrArg Prod.fst h2a
        rw [hb1, hb2]
    have hsafe1 : ∀ x ∈ [np], ∀ e ∈ kd.devices ++ [(np, [np])],
        x ∈ e.2 → e.1 = np := by
      intro x hx e he hxe
      simp only [List.mem_singleton] at hx
      rw [hx] at hxe
      rcases List.mem_append.mp he with h1 | h1
      · by_contra hne
        exact hprim e h1 hne hxe
      · simp only [List.mem_singleton] at h1
        rw [h1]
    have hprim1 : ∀ e ∈ kd.devices ++ [(np, [np])], e.1 ≠ np → np ∉ e.2 := by
      intro e he hne
      rcases List.mem_append.mp he with h1 | h1
      · exact hprim e h1 hne
      · simp only [List.mem_singleton] at h1
        rw [h1] at hne
        exact absurd rfl hne
    exact register_core hnodup1 hget1 hfun1 hsafe1 hprim1
  · dsimp only
    rw [hget, Option.getD_some]
    have hsafe0 : ∀ x ∈ entry0, ∀ e ∈ kd.devices, x ∈ e.2 → e.1 = np :=
      fun x hx e he hxe =>
        hfun e.1 e.2 np entry0 he (alGet_mem hget) x hxe hx
    exact register_core hnodup hget hfun hsafe0 hprim

end NxIdentity

/-- C1 counterexample: the member-to-primary mapping of the identity store is
NOT always a function. Starting from an empty store, associating `BB` to
primary `AA` and then associating `CC` to primary `BB` leaves `BB` a member
of two identity records (`AA`'s record and `BB`'s own new record):
`_register_secondary_mac` strips the NEW MAC from other records but never
removes the chosen PRIMARY MAC from a record it already belongs to. -/
theorem C1_counterexample :
    ((NxIdentity.registerSecondaryMac macBB macCC
        ((NxIdentity.registerSecondaryMac macAA macBB
          { devices := [], pending := [] }).1)).1.devices.countP
      (fun e => decide (macBB ∈ e.2))) = 2 := by decide

/-- C1 amended: the uniqueness invariant holds for association steps whose
(normalized) primary MAC is not currently a member of another record — i.e.
it is an existing record key or entirely fresh. Under that precondition
`_register_secondary_mac` keeps the store's primary keys unique and keeps the
member-to-primary mapping a function: the new MAC is stripped from every
other record (an emptied record being dropped), but nothing ever strips the
primary MAC, which is why the unrestricted claim fails. -/
theorem C1_amended_theorem (p m np nm : Str) (kd : NxIdentity.Known)
    (hp : NxApi.normalizeMac p = some np)
    (hm : NxApi.normalizeMac m = some nm)
    (hnodup : (alKeys kd.devices).Nodup)
    (hfun : NxIdentity.MemFun kd.devices)
    (hprim : ∀ e ∈ kd.devices, e.1 ≠ np → np ∉ e.2) :
    (alKeys (NxIdentity.registerSecondaryMac p m kd).1.devices).Nodup ∧
    NxIdentity.MemFun (NxIdentity.registerSecondaryMac p m kd).1.devices :=
  NxIdentity.registerSecondaryMac_preserves hp hm hnodup hfun hprim

/-- Witness for C1 (amended) at a concrete input: associating `CC` to the
stored primary `AA` of the one-record store `AA ↦ [AA, BB]` keeps keys unique
and the member map functional. -/
theorem C1_amended_witness :
    (alKeys (NxIdentity.registerSecondaryMac macAA macCC
        { devices := [(macAA, [macAA, macBB])],
          pending := [] }).1.devices).Nodup ∧
    NxIdentity.MemFun (NxIdentity.registerSecondaryMac macAA macCC
        { devices := [(macAA, [macAA, macBB])], pending := [] }).1.devices :=
  C1_amended_theorem macAA macCC macAA macCC
    { devices := [(macAA, [macAA, macBB])], pending := [] }
    (by decide) (by decide) (by decide)
    (NxIdentity.memFun_singleton macAA [macAA, macBB]) (by decide)
